import Mathlib

/-!
Verification of the go-mcache cache engine against its specification.

Each Go function referenced by the claims is embedded shallowly:
pure functions become Lean functions over `Nat`/`Int`/`List`, machine
integers become `Nat` with explicit `% 2^64` / `% 2^32` where Go overflow
semantics matter, Go maps become association lists (one fixed iteration
order, a legal refinement of Go's unspecified order), and the global
cached clock becomes an explicit `now` argument.  Randomized parts
(sketch seeds, reservoir sampling) take the random data as parameters or
are fixed to one legal outcome, documented at the definition.
-/

set_option maxRecDepth 10000

/-! ## Bit-arithmetic toolkit

Bridging lemmas between Go's bit operations and `Nat` division/modulus
arithmetic, used to reason about the packed counters of the Count-Min
sketches. -/

namespace GoHash

/-! ## Key hashing (src/internal/hash/fnv.go, src/internal/store/sharded.go)

Go strings are byte sequences; we model them as `List Nat` of byte
values.  The untyped (`any`) keys of the store's switch become an
inductive covering exactly the cases the source distinguishes. -/
def offset64 : Nat := 14695981039346656037

def prime64 : Nat := 1099511628211

def M64 : Nat := 2 ^ 64

/-- `hash.String`: FNV-1a over the bytes, with uint64 wrap-around. -/
def hashString (s : List Nat) : Nat :=
  s.foldl (fun h b => ((h ^^^ b) * prime64) % M64) offset64

/-- Two's-complement reinterpretation of an int64 as uint64 (`uint64(k)`). -/
def intToUint64 (i : Int) : Nat :=
  (i % (2 ^ 64 : Int)).toNat

/-- `hash.Uint64`: the splitmix64 finalizer. -/
def hashUint64 (k : Nat) : Nat :=
  let x := k % M64
  let x := x ^^^ (x >>> 30)
  let x := (x * 0xbf58476d1ce4e5b9) % M64
  let x := x ^^^ (x >>> 27)
  let x := (x * 0x94d049bb133111eb) % M64
  x ^^^ (x >>> 31)

/-- `hash.Int64` delegates to the splitmix64 finalizer on the bit pattern. -/
def hashInt64 (k : Int) : Nat :=
  hashUint64 (intToUint64 k)

/-- The runtime type cases distinguished by `defaultHash`'s type switch.
`other` stands for every comparable key type that is not one of the six
listed ones; its field is an opaque representation of the value. -/
inductive GoKey where
  | str (s : List Nat)
  | int (i : Int)
  | int64 (i : Int)
  | uint64 (u : Nat)
  | int32 (i : Int)
  | uint32 (u : Nat)
  | other (rep : Nat)
deriving DecidableEq

/-- `anyToString` (src/internal/store/sharded.go): strings pass through,
every other type gets the empty-string representation. -/
def anyToString (key : GoKey) : List Nat :=
  match key with
  | .str s => s
  | _ => []

/-- `defaultHash` (src/internal/store/sharded.go). -/
def defaultHash (key : GoKey) : Nat :=
  match key with
  | .str s => hashString s
  | .int i => hashInt64 i
  | .int64 i => hashInt64 i
  | .uint64 u => hashUint64 u
  | .int32 i => hashInt64 i
  | .uint32 u => hashUint64 u
  | .other _ => hashString (anyToString key)

end GoHash

namespace Glob

/-! ## Glob matcher (src/internal/glob, concatenated into clock.go)

Keys and patterns are byte strings in Go; we model them as `List Char`.
`extractPrefix` is rendered as `extractPfx` (a naming constraint of this
development), and the `(value, error)` pair of `Compile` as `Except`. -/
inductive Segment where
  | lit (s : List Char)
  | star
  | double
  | question
  | charset (cs : List Char) (negated : Bool)
deriving DecidableEq, Repr

inductive GlobErr where
  | emptyPattern
  | invalidPattern
  | unmatchedBrace
deriving DecidableEq, Repr

/-- `unescape`: removes backslash escapes; a trailing lone backslash is
kept literally (Go's `i+1 < len(s)` guard). -/
def unescape : List Char → List Char
  | [] => []
  | '\\' :: d :: rest => d :: unescape rest
  | c :: rest => c :: unescape rest

/-- The literal-run collection loop in `Compile`'s default case: stops at
the first unescaped `*`, `?` or `[`; a backslash consumes the following
character as well.  Returns the raw run and the remaining input. -/
def takeLit : List Char → List Char × List Char
  | [] => ([], [])
  | c :: rest =>
    if c = '*' ∨ c = '?' ∨ c = '[' then ([], c :: rest)
    else if c = '\\' then
      match rest with
      | [] => ([c], [])
      | d :: rest2 =>
        let p := takeLit rest2
        (c :: d :: p.1, p.2)
    else
      let p := takeLit rest
      (c :: p.1, p.2)

/-- `extractPrefix`: the literal prefix before the first unescaped
wildcard, with escapes resolved. -/
def extractPfx : List Char → List Char
  | [] => []
  | c :: rest =>
    if c = '*' ∨ c = '?' ∨ c = '[' then []
    else if c = '\\' then
      match rest with
      | [] => [c]
      | d :: rest2 => d :: extractPfx rest2
    else c :: extractPfx rest

/-- The character-range expansion `a-z` inside a charset (Go iterates
byte codes from the smaller to the larger bound inclusively). -/
def rangeChars (cstart cstop : Char) : List Char :=
  let a := cstart.toNat
  let b := cstop.toNat
  let lo := if b < a then b else a
  let hi := if b < a then a else b
  (List.range (hi + 1 - lo)).map (fun i => Char.ofNat (lo + i))

/-- The scanning loop of `parseCharset` (after `[` and the optional
negation marker): collects members until the closing `]`; `none` models
`ErrUnmatchedBrace` (also reached when a lone trailing backslash makes
the scan run off the end).  The range test mirrors Go's
`i+2 < len(pattern) && pattern[i+1] == '-' && pattern[i+2] != ']'`,
where `rest` holds the characters after position `i`.  The `fuel`
argument only bounds the loop: every iteration of Go's loop consumes at
least one character, so callers pass `length + 1` and the `fuel = 0`
case is never reached. -/
def parseSetBody : Nat → List Char → Option (List Char × List Char)
  | 0, _ => none
  | _ + 1, [] => none
  | fuel + 1, c :: rest =>
    if c = ']' then some ([], rest)
    else if c = '\\' then
      match rest with
      | [] => none
      | d :: rest2 =>
        match parseSetBody fuel rest2 with
        | none => none
        | some (cs, r) => some (d :: cs, r)
    else
      if 2 ≤ rest.length ∧ rest.getD 0 ' ' = '-' ∧ rest.getD 1 ' ' ≠ ']' then
        match parseSetBody fuel (rest.drop 2) with
        | none => none
        | some (cs, r) => some (rangeChars c (rest.getD 1 ' ') ++ cs, r)
      else
        match parseSetBody fuel rest with
        | none => none
        | some (cs, r) => some (c :: cs, r)

/-- `parseCharset` on the text after the opening `[`: optional `^`/`!`
negation marker (Go's `i < len(pattern)` guard is the `getD` default),
then the member loop. -/
def parseCharset (l : List Char) : Option (List Char × Bool × List Char) :=
  if l.getD 0 ' ' = '^' ∨ l.getD 0 ' ' = '!' then
    (parseSetBody (l.tail.length + 1) l.tail).map (fun p => (p.1, true, p.2))
  else
    (parseSetBody (l.length + 1) l).map (fun p => (p.1, false, p.2))

/-- The segment-parsing loop of `Compile`, producing the segment list;
`none` models the returned compile error.  As above, `fuel` only bounds
the loop (every iteration consumes at least one character). -/
def parseSegs : Nat → List Char → Option (List Segment)
  | 0, _ => none
  | _ + 1, [] => some []
  | fuel + 1, c :: rest =>
    if c = '*' then
      if rest.getD 0 ' ' = '*' then
        match parseSegs fuel rest.tail with
        | none => none
        | some segs => some (.double :: segs)
      else
        match parseSegs fuel rest with
        | none => none
        | some segs => some (.star :: segs)
    else if c = '?' then
      match parseSegs fuel rest with
      | none => none
      | some segs => some (.question :: segs)
    else if c = '[' then
      match parseCharset rest with
      | none => none
      | some (cs, neg, r) =>
        match parseSegs fuel r with
        | none => none
        | some segs => some (.charset cs neg :: segs)
    else
      match parseSegs fuel (takeLit (c :: rest)).2 with
      | none => none
      | some segs => some (.lit (unescape (takeLit (c :: rest)).1) :: segs)

/-- A compiled glob pattern (struct `Pattern`); `hasDouble` records
whether a `**` segment was appended. -/
structure Pattern where
  raw : List Char
  pfx : List Char
  segments : List Segment
  hasDouble : Bool
deriving DecidableEq, Repr

/-- `Compile`: empty patterns fail with `ErrEmptyPattern`; the only
parse failure the segment loop can produce is `ErrUnmatchedBrace`. -/
def Compile (pattern : List Char) : Except GlobErr Pattern :=
  if pattern = [] then .error .emptyPattern
  else
    match parseSegs (pattern.length + 1) pattern with
    | none => .error .unmatchedBrace
    | some segs => .ok ⟨pattern, extractPfx pattern, segs, segs.contains .double⟩

/-- `Pattern.matchSegments`: the backtracking matcher over segments.
Go's `keyPos` index becomes the remaining-key suffix; the `*`/`**` scan
`for i := keyPos; i <= len(key); i++` becomes a search over all drops. -/
def matchSegs : List Segment → List Char → Bool
  | [], key => key.isEmpty
  | .lit l :: rest, key =>
    if key.length < l.length then false
    else if key.take l.length ≠ l then false
    else matchSegs rest (key.drop l.length)
  | .question :: rest, key =>
    match key with
    | [] => false
    | _ :: t => matchSegs rest t
  | .charset cs neg :: rest, key =>
    match key with
    | [] => false
    | c :: t =>
      let inSet := cs.contains c
      let inSet2 := if neg then !inSet else inSet
      if inSet2 then matchSegs rest t else false
  | .star :: rest, key =>
    (List.range (key.length + 1)).any (fun i => matchSegs rest (key.drop i))
  | .double :: rest, key =>
    (List.range (key.length + 1)).any (fun i => matchSegs rest (key.drop i))

/-- `Pattern.Match`. -/
def patMatch (p : Pattern) (key : List Char) : Bool :=
  matchSegs p.segments key

end Glob

namespace Radix

/-! ## Radix tree (src/unnamed/part_014, package radix)

The node's `map[byte]*node` becomes an association structure `RKids`
(one fixed iteration order, a legal refinement of Go's unspecified map
order).  The Go functions that recurse through a looked-up child are
rendered as mutually recursive walks over `RNode`/`RKids`, which fuses
the map lookup (`children[c]`) with the recursion but performs the same
per-binding steps. -/
mutual
inductive RNode where
  | node (pfx : List Char) (isLeaf : Bool) (keyHash : Nat) (children : RKids)
inductive RKids where
  | nil
  | cons (c : Char) (child : RNode) (rest : RKids)
end

def RNode.pfx : RNode → List Char
  | .node p _ _ _ => p

def RNode.leaf : RNode → Bool
  | .node _ l _ _ => l

def RNode.keyHash : RNode → Nat
  | .node _ _ h _ => h

def RNode.children : RNode → RKids
  | .node _ _ _ cs => cs

/-- Replace a node's prefix (the `child.prefix = ...` mutations). -/
def RNode.withPfx : RNode → List Char → RNode
  | .node _ l h cs, p => .node p l h cs

def kidsLen : RKids → Nat
  | .nil => 0
  | .cons _ _ rest => kidsLen rest + 1

/-- The single binding visited by Go's `for _, grandchild := range ... break`
(used only on maps of size one, where it is deterministic). -/
def kidsFirst : RKids → Option (Char × RNode)
  | .nil => none
  | .cons c n _ => some (c, n)

/-- `commonPrefixLen`. -/
def commonPrefixLen : List Char → List Char → Nat
  | a :: as, b :: bs => if a = b then commonPrefixLen as bs + 1 else 0
  | _, _ => 0

mutual
/-- `Tree.insertNode`. -/
def insertNode : RNode → List Char → Nat → RNode
  | .node p _ _ cs, [], h => .node p true h cs
  | .node p l kh cs, c :: krest, h => .node p l kh (insertKids cs c (c :: krest) h)

/-- The lookup/assignment of `n.children[key[0]]` inside `insertNode`,
walking the bindings: a hit applies the recurse-or-split logic, a miss
appends the fresh leaf. -/
def insertKids : RKids → Char → List Char → Nat → RKids
  | .nil, c, key, h => .cons c (.node key true h .nil) .nil
  | .cons c1 child rest, c, key, h =>
    if c1 = c then
      let cl := commonPrefixLen child.pfx key
      if cl = child.pfx.length then
        .cons c1 (insertNode child (key.drop cl) h) rest
      else
        -- split the child: new inner node carrying the common prefix
        let moved := child.withPfx (child.pfx.drop cl)
        let remaining := key.drop cl
        let newChild :=
          if remaining.length = 0 then
            RNode.node (child.pfx.take cl) true h
              (.cons (moved.pfx.getD 0 ' ') moved .nil)
          else
            RNode.node (child.pfx.take cl) false 0
              (.cons (moved.pfx.getD 0 ' ') moved
                (.cons (remaining.getD 0 ' ') (.node remaining true h .nil) .nil))
        .cons c1 newChild rest
    else .cons c1 child (insertKids rest c key h)
end

mutual
/-- `Tree.deleteNode`, returning the rewritten node and the `deleted` flag. -/
def deleteNode : RNode → List Char → RNode × Bool
  | .node p l kh cs, [] =>
    if l then (.node p false 0 cs, true) else (.node p l kh cs, false)
  | .node p l kh cs, c :: krest =>
    let r := deleteKids cs c (c :: krest)
    (.node p l kh r.1, r.2)

/-- The child lookup, recursive delete and parent-frame cleanup
(empty-node removal, single-child merge) of `deleteNode`. -/
def deleteKids : RKids → Char → List Char → RKids × Bool
  | .nil, _, _ => (.nil, false)
  | .cons c1 child rest, c, key =>
    if c1 = c then
      let cl := commonPrefixLen child.pfx key
      if cl < child.pfx.length then (.cons c1 child rest, false)
      else
        let dr := deleteNode child (key.drop cl)
        let child2 := dr.1
        if !child2.leaf && kidsLen child2.children = 0 then
          (rest, dr.2)
        else if !child2.leaf && kidsLen child2.children = 1 then
          match kidsFirst child2.children with
          | some gp =>
            (.cons c1 (gp.2.withPfx (child2.pfx ++ gp.2.pfx)) rest, dr.2)
          | none => (.cons c1 child2 rest, dr.2)
        else (.cons c1 child2 rest, dr.2)
    else
      let r := deleteKids rest c key
      (.cons c1 child r.1, r.2)
end

mutual
/-- `Tree.Has` (the iterative descent, rendered recursively). -/
def hasNode : RNode → List Char → Bool
  | n, [] => n.leaf
  | .node _ _ _ cs, c :: krest => hasKids cs c (c :: krest)

def hasKids : RKids → Char → List Char → Bool
  | .nil, _, _ => false
  | .cons c1 child rest, c, key =>
    if c1 = c then
      let cl := commonPrefixLen child.pfx key
      if cl < child.pfx.length then false
      else if cl = key.length then child.leaf
      else hasNode child (key.drop cl)
    else hasKids rest c key
end

mutual
/-- The prefix-descent loop of `FindByPrefix`, returning the node whose
subtree carries every key with the requested prefix. -/
def findNode : RNode → List Char → Option RNode
  | n, [] => some n
  | .node _ _ _ cs, c :: krest => findKids cs c (c :: krest)

def findKids : RKids → Char → List Char → Option RNode
  | .nil, _, _ => none
  | .cons c1 child rest, c, remaining =>
    if c1 = c then
      let cl := commonPrefixLen child.pfx remaining
      if cl < remaining.length ∧ cl < child.pfx.length then none
      else if remaining.length ≤ cl then some child
      else findNode child (remaining.drop cl)
    else findKids rest c remaining
end

mutual
/-- `Tree.collectHashes`: append the leaf hashes below a node until the
limit is reached (entry guard, then leaf append, then children). -/
def collectNode : RNode → List Nat → Int → List Nat
  | .node _ leaf kh cs, results, limit =>
    if limit ≤ (results.length : Int) then results
    else collectKids cs (if leaf then results ++ [kh] else results) limit

def collectKids : RKids → List Nat → Int → List Nat
  | .nil, results, _ => results
  | .cons _ child rest, results, limit =>
    let r2 := collectNode child results limit
    if limit ≤ (r2.length : Int) then r2
    else collectKids rest r2 limit
end

/-- The tree facade; `size` is the Go `int64` counter. -/
structure Tree where
  root : RNode
  size : Int

/-- `radix.New`. -/
def Tree.new : Tree :=
  ⟨.node [] false 0 .nil, 0⟩

/-- `Tree.Insert`: insert, then increment the size counter. -/
def Tree.insert (t : Tree) (key : List Char) (h : Nat) : Tree :=
  ⟨insertNode t.root key h, t.size + 1⟩

/-- `Tree.Delete`: delete, decrement the counter only on success. -/
def Tree.del (t : Tree) (key : List Char) : Tree × Bool :=
  let r := deleteNode t.root key
  if r.2 then (⟨r.1, t.size - 1⟩, true) else (⟨r.1, t.size⟩, false)

/-- `Tree.Has`. -/
def Tree.hasKey (t : Tree) (key : List Char) : Bool :=
  hasNode t.root key

/-- `Tree.FindByPrefix`. -/
def Tree.findByPfx (t : Tree) (p : List Char) (limit : Int) : List Nat :=
  let lim := if limit ≤ 0 then 100 else limit
  match findNode t.root p with
  | none => []
  | some n => collectNode n [] lim

/-- `Tree.Size`. -/
def Tree.treeSize (t : Tree) : Int :=
  t.size

mutual
/-- Abstraction: the (relative key, hash) pairs stored below a node,
with keys taken relative to the position after the node's own prefix. -/
def entriesN : RNode → List (List Char × Nat)
  | .node _ leaf kh cs => (if leaf then [([], kh)] else []) ++ entriesKids cs

def entriesKids : RKids → List (List Char × Nat)
  | .nil => []
  | .cons _ child rest =>
    (entriesN child).map (fun e => (child.pfx ++ e.1, e.2)) ++ entriesKids rest
end

def kidsHasChar : RKids → Char → Bool
  | .nil, _ => false
  | .cons c1 _ rest, c => c1 = c || kidsHasChar rest c

mutual
/-- Well-formedness of reachable trees: binding characters are distinct,
every child's prefix is nonempty and starts with its binding character. -/
def wfN : RNode → Bool
  | .node _ _ _ cs => wfKids cs

def wfKids : RKids → Bool
  | .nil => true
  | .cons c child rest =>
    (match child.pfx with
     | [] => false
     | c2 :: _ => c2 = c) && wfN child && !(kidsHasChar rest c) && wfKids rest
end

end Radix

namespace GoPolicy

/-! ## Admission/eviction policy (src/internal/policy)

Machine words are `Nat` with explicit `% 2^64` / `% 2^32` (and AND-NOT
rendered as AND with the 32-bit complement).  Random sketch seeds become
constructor parameters, and each CAS loop becomes its single successful
iteration (the embedding is single-threaded). -/
def M64 : Nat := 2 ^ 64

/-- `bloomFilter`.  The Go constructor's `fpRate` argument is only
range-checked and never used by the simplified sizing, so it is omitted. -/
structure BloomFilter where
  bits : List Nat
  numBits : Nat
  numHash : Nat

/-- `newBloomFilter`: `numBits ≈ n·10`, at least 64, rounded up to a
multiple of 64; 7 hash probes. -/
def newBloomFilter (n : Int) : BloomFilter :=
  let n2 : Int := if n ≤ 0 then 10000 else n
  let numBits0 : Nat := n2.toNat * 10
  let numBits1 := if numBits0 < 64 then 64 else numBits0
  let numBits := ((numBits1 + 63) / 64) * 64
  { bits := List.replicate (numBits / 64) 0, numBits := numBits, numHash := 7 }

/-- `bloomFilter.index`: double hashing `h1 + i·h2` with the rotated
word `h2`, all with uint64 wrap-around. -/
def bloomIndex (bf : BloomFilter) (keyHash : Nat) (i : Nat) : Nat :=
  let h1 := keyHash
  let h2 := (keyHash >>> 32) ||| ((keyHash <<< 32) % M64)
  ((h1 + i * h2) % M64) % bf.numBits

/-- `bloomFilter.Add`: sets the k probe bits, returns whether all were
already set. -/
def bloomAdd (bf : BloomFilter) (keyHash : Nat) : Bool × BloomFilter :=
  (List.range bf.numHash).foldl
    (fun acc i =>
      let bf1 := acc.2
      let idx := bloomIndex bf1 keyHash i
      let wordIdx := idx / 64
      let bitIdx := idx % 64
      let mask := (1 : Nat) <<< bitIdx
      let w := bf1.bits.getD wordIdx 0
      if w &&& mask = 0 then
        (false, { bf1 with bits := bf1.bits.set wordIdx (w ||| mask) })
      else acc)
    (true, bf)

/-- `bloomFilter.Contains`. -/
def bloomContains (bf : BloomFilter) (keyHash : Nat) : Bool :=
  (List.range bf.numHash).all (fun i =>
    let idx := bloomIndex bf keyHash i
    let w := bf.bits.getD (idx / 64) 0
    !(w &&& ((1 : Nat) <<< (idx % 64)) == 0))

/-- `bloomFilter.Reset`. -/
def bloomReset (bf : BloomFilter) : BloomFilter :=
  { bf with bits := List.replicate bf.bits.length 0 }

/-- `for w < width { w <<= 1 }` starting from 1; the fuel is ample since
`w` doubles every step. -/
def nextPow2Aux : Nat → Nat → Nat → Nat
  | 0, _, w => w
  | fuel + 1, n, w => if w < n then nextPow2Aux fuel n (w * 2) else w

def nextPow2 (n : Nat) : Nat :=
  nextPow2Aux n n 1

/-- The 64-bit mixing common to both sketches' `index`. -/
def sketchIndex (width : Nat) (seed : Nat) (keyHash : Nat) : Nat :=
  let h := keyHash ^^^ seed
  let h := h ^^^ (h >>> 33)
  let h := (h * 0xff51afd7ed558ccd) % M64
  let h := h ^^^ (h >>> 33)
  let h := (h * 0xc4ceb9fe1a85ec53) % M64
  let h := h ^^^ (h >>> 33)
  h &&& (width - 1)

/-- `cmSketch` (sketch.go): 4 rows of 4-bit counters, two per byte. -/
structure CmSketch where
  width : Nat
  seeds : List Nat
  rows : List (List Nat)

/-- `newCMSketch`; the Go-side random seeds are a parameter. -/
def newCMSketch (width : Int) (seeds : List Nat) : CmSketch :=
  let w0 : Int := if width ≤ 0 then 2 ^ 20 else width
  let w := nextPow2 w0.toNat
  { width := w, seeds := seeds,
    rows := List.replicate 4 (List.replicate ((w + 1) / 2) 0) }

/-- `cmSketch.getAt`: extract the 4-bit counter at `idx` from a row. -/
def cmGetAt (row : List Nat) (idx : Nat) : Nat :=
  let b := row.getD (idx / 2) 0
  if idx &&& 1 = 0 then b &&& 15 else (b >>> 4) &&& 15

/-- `cmSketch.incrementAt`: saturating 4-bit increment (no change at 15). -/
def cmIncrementAt (row : List Nat) (idx : Nat) : List Nat :=
  let byteIdx := idx / 2
  let b := row.getD byteIdx 0
  let val := if idx &&& 1 = 0 then b &&& 15 else (b >>> 4) &&& 15
  if val < 15 then
    if idx &&& 1 = 0 then row.set byteIdx ((b &&& 0xF0) ||| (val + 1))
    else row.set byteIdx ((b &&& 0x0F) ||| ((val + 1) <<< 4))
  else row

/-- `cmSketch.Increment`: bump each row at its mixed index. -/
def CmSketch.increment (s : CmSketch) (keyHash : Nat) : CmSketch :=
  { s with rows := (List.range 4).map (fun i =>
      cmIncrementAt (s.rows.getD i [])
        (sketchIndex s.width (s.seeds.getD i 0) keyHash)) }

/-- `cmSketch.Estimate`: minimum counter across the 4 rows (running min
starting from the 4-bit maximum 15). -/
def CmSketch.estimate (s : CmSketch) (keyHash : Nat) : Int :=
  (List.range 4).foldl
    (fun m i =>
      let v : Int :=
        (cmGetAt (s.rows.getD i [])
          (sketchIndex s.width (s.seeds.getD i 0) keyHash) : Int)
      if v < m then v else m)
    15

/-- `cmSketch.Reset`: halve both nibbles of every byte. -/
def CmSketch.reset (s : CmSketch) : CmSketch :=
  { s with rows := s.rows.map (fun row => row.map (fun b =>
      let low := (b &&& 0x0F) >>> 1
      let high := ((b >>> 4) &&& 0x0F) >>> 1
      low ||| (high <<< 4))) }

/-- `cmSketch.Clear`. -/
def CmSketch.clear (s : CmSketch) : CmSketch :=
  { s with rows := s.rows.map (fun row => List.replicate row.length 0) }

/-- `cmSketchLockFree` (in sampledlfu.go): 4 rows of 8-bit counters,
four per uint32 word. -/
structure CmSketchLF where
  width : Nat
  seeds : List Nat
  rows : List (List Nat)

/-- `newCMSketchLockFree`. -/
def newCMSketchLF (width : Int) (seeds : List Nat) : CmSketchLF :=
  let w0 : Int := if width ≤ 0 then 2 ^ 20 else width
  let w := nextPow2 w0.toNat
  { width := w, seeds := seeds,
    rows := List.replicate 4 (List.replicate ((w + 3) / 4) 0) }

/-- `cmSketchLockFree.getAt`. -/
def lfGetAt (row : List Nat) (idx : Nat) : Nat :=
  let w := row.getD (idx / 4) 0
  (w >>> ((idx % 4) * 8)) &&& 255

/-- `cmSketchLockFree.incrementAt`: the successful iteration of the CAS
loop; `old &^ (0xFF << bytePos)` is AND with the 32-bit complement. -/
def lfIncrementAt (row : List Nat) (idx : Nat) : List Nat :=
  let wordIdx := idx / 4
  let bytePos := (idx % 4) * 8
  let old := row.getD wordIdx 0
  let val := (old >>> bytePos) &&& 255
  if 255 ≤ val then row
  else
    row.set wordIdx
      ((old &&& (4294967295 ^^^ (255 <<< bytePos))) ||| ((val + 1) <<< bytePos))

/-- `cmSketchLockFree.Increment`. -/
def CmSketchLF.increment (s : CmSketchLF) (keyHash : Nat) : CmSketchLF :=
  { s with rows := (List.range 4).map (fun i =>
      lfIncrementAt (s.rows.getD i [])
        (sketchIndex s.width (s.seeds.getD i 0) keyHash)) }

/-- `cmSketchLockFree.Estimate` (running min from the 8-bit maximum 255). -/
def CmSketchLF.estimate (s : CmSketchLF) (keyHash : Nat) : Int :=
  (List.range 4).foldl
    (fun m i =>
      let v : Int :=
        (lfGetAt (s.rows.getD i [])
          (sketchIndex s.width (s.seeds.getD i 0) keyHash) : Int)
      if v < m then v else m)
    255

/-- The per-word halving of `cmSketchLockFree.Reset`. -/
def lfResetWord (old : Nat) : Nat :=
  let b0 := ((old >>> 0) &&& 255) >>> 1
  let b1 := ((old >>> 8) &&& 255) >>> 1
  let b2 := ((old >>> 16) &&& 255) >>> 1
  let b3 := ((old >>> 24) &&& 255) >>> 1
  b0 ||| (b1 <<< 8) ||| (b2 <<< 16) ||| (b3 <<< 24)

/-- `cmSketchLockFree.Reset`. -/
def CmSketchLF.reset (s : CmSketchLF) : CmSketchLF :=
  { s with rows := s.rows.map (fun row => row.map lfResetWord) }

/-- `TinyLFU` (tinylfu.go). -/
structure TinyLFU where
  freq : CmSketch
  door : BloomFilter
  incrs : Int
  resetAt : Int

/-- `NewTinyLFU`. -/
def newTinyLFU (numCounters : Int) (seeds : List Nat) : TinyLFU :=
  let nc : Int := if numCounters ≤ 0 then 2 ^ 20 else numCounters
  { freq := newCMSketch nc seeds
    door := newBloomFilter (nc / 10)
    incrs := 0
    resetAt := nc }

/-- `TinyLFU.Increment`: doorkeeper first, sketch only for repeat
visitors, then the aging reset at the threshold. -/
def TinyLFU.increment (t : TinyLFU) (keyHash : Nat) : TinyLFU :=
  let ad := bloomAdd t.door keyHash
  let freq2 := if ad.1 then t.freq.increment keyHash else t.freq
  let incrs2 := t.incrs + 1
  if t.resetAt ≤ incrs2 then
    { freq := freq2.reset, door := bloomReset ad.2, incrs := 0, resetAt := t.resetAt }
  else
    { freq := freq2, door := ad.2, incrs := incrs2, resetAt := t.resetAt }

/-- `TinyLFU.Estimate`: sketch estimate plus one if the doorkeeper holds
the key. -/
def TinyLFU.estimate (t : TinyLFU) (keyHash : Nat) : Int :=
  t.freq.estimate keyHash + (if bloomContains t.door keyHash then 1 else 0)

/-- `TinyLFU.Admit`: admit iff the incoming estimate is at least the
victim's. -/
def TinyLFU.admitOver (t : TinyLFU) (incoming victim : Nat) : Bool :=
  t.estimate victim ≤ t.estimate incoming

/-- `SampledLFU` (sampledlfu.go); the cost map is an association list in
insertion order. -/
structure SampledLFU where
  keyCosts : List (Nat × Int)
  maxCost : Int
  usedCost : Int
  maxEntries : Int
  numEntries : Int
  sampleSize : Nat

/-- `NewSampledLFU`. -/
def newSampledLFU (maxCost maxEntries : Int) : SampledLFU :=
  ⟨[], maxCost, 0, maxEntries, 0, 5⟩

def lookupCost : List (Nat × Int) → Nat → Option Int
  | [], _ => none
  | (k, v) :: rest, h => if k = h then some v else lookupCost rest h

def setCost : List (Nat × Int) → Nat → Int → List (Nat × Int)
  | [], h, c => [(h, c)]
  | (k, v) :: rest, h, c =>
    if k = h then (k, c) :: rest else (k, v) :: setCost rest h c

def removeCost : List (Nat × Int) → Nat → List (Nat × Int)
  | [], _ => []
  | (k, v) :: rest, h => if k = h then rest else (k, v) :: removeCost rest h

/-- `SampledLFU.Add` (the Go method always returns true; the flag is
dropped). -/
def SampledLFU.add (s : SampledLFU) (keyHash : Nat) (cost : Int) : SampledLFU :=
  match lookupCost s.keyCosts keyHash with
  | some existing =>
    { s with usedCost := s.usedCost + cost - existing
             keyCosts := setCost s.keyCosts keyHash cost }
  | none =>
    { s with keyCosts := s.keyCosts ++ [(keyHash, cost)]
             usedCost := s.usedCost + cost
             numEntries := s.numEntries + 1 }

/-- `SampledLFU.Has`. -/
def SampledLFU.has (s : SampledLFU) (keyHash : Nat) : Bool :=
  (lookupCost s.keyCosts keyHash).isSome

/-- `SampledLFU.Del`. -/
def SampledLFU.del (s : SampledLFU) (keyHash : Nat) : SampledLFU :=
  match lookupCost s.keyCosts keyHash with
  | some cost =>
    { s with usedCost := s.usedCost - cost
             numEntries := s.numEntries - 1
             keyCosts := removeCost s.keyCosts keyHash }
  | none => s

/-- `SampledLFU.Update`. -/
def SampledLFU.update (s : SampledLFU) (keyHash : Nat) (cost : Int) : SampledLFU :=
  match lookupCost s.keyCosts keyHash with
  | some existing =>
    { s with usedCost := s.usedCost + cost - existing
             keyCosts := setCost s.keyCosts keyHash cost }
  | none => s

/-- `SampledLFU.NeedsEviction`: either limit strictly exceeded. -/
def SampledLFU.needsEviction (s : SampledLFU) : Bool :=
  if 0 < s.maxCost ∧ s.maxCost < s.usedCost then true
  else if 0 < s.maxEntries ∧ s.maxEntries < s.numEntries then true
  else false

/-- `SampledLFU.Sample`: reservoir sampling over the map.  Modelled as
the fixed legal outcome in which the first `min(5, n)` keys in iteration
order fill the reservoir and the rng never replaces them. -/
def SampledLFU.sample (s : SampledLFU) : List Nat :=
  if s.keyCosts.isEmpty then []
  else (s.keyCosts.map Prod.fst).take s.sampleSize

/-- `Policy` (policy.go): TinyLFU admission joined with SampledLFU
eviction. -/
structure Policy where
  tiny : TinyLFU
  evict : SampledLFU

/-- `NewPolicy`. -/
def newPolicy (numCounters maxCost maxEntries : Int) (seeds : List Nat) : Policy :=
  let nc1 : Int := if numCounters ≤ 0 ∧ 0 < maxEntries then maxEntries * 10 else numCounters
  let nc2 : Int := if nc1 ≤ 0 then 2 ^ 20 else nc1
  { tiny := newTinyLFU nc2 seeds, evict := newSampledLFU maxCost maxEntries }

/-- The sampled-minimum selection inside `findVictimsLocked`: strict
comparison against the running minimum (initially `1<<63 - 1`) keeps the
first minimal candidate. -/
def lowestEstimate (t : TinyLFU) (sample : List Nat) : Nat :=
  (sample.foldl
    (fun acc kh =>
      let f := t.estimate kh
      if f < acc.2 then (kh, f) else acc)
    (0, (2 ^ 63 - 1 : Int))).1

/-- The eviction loop of `findVictimsLocked`.  Each Go iteration deletes
one tracked key, so the caller's fuel `numEntries + 1` is never
exhausted; on exhaustion the current state is returned. -/
def findVictimsLoop : Nat → TinyLFU → SampledLFU → Nat → List Nat → SampledLFU × List Nat
  | 0, _, ev, _, victims => (ev, victims)
  | fuel + 1, tiny, ev, incoming, victims =>
    if ev.needsEviction then
      let sample := ev.sample
      if sample.isEmpty then (ev, victims)
      else
        let victim := lowestEstimate tiny sample
        if !(tiny.admitOver incoming victim) then (ev, victims)
        else findVictimsLoop fuel tiny (ev.del victim) incoming (victims ++ [victim])
    else (ev, victims)

/-- `Policy.Add`: record the access, update if already tracked, else run
the eviction loop and add.  Returns (state, victims, added). -/
def Policy.add (p : Policy) (keyHash : Nat) (cost : Int) : Policy × List Nat × Bool :=
  let tiny := p.tiny.increment keyHash
  if p.evict.has keyHash then
    ({ tiny := tiny, evict := p.evict.update keyHash cost }, [], true)
  else
    let fv := findVictimsLoop (p.evict.numEntries.toNat + 1) tiny p.evict keyHash []
    ({ tiny := tiny, evict := fv.1.add keyHash cost }, fv.2, true)

/-- `Policy.Access`. -/
def Policy.access (p : Policy) (keyHash : Nat) : Policy :=
  { p with tiny := p.tiny.increment keyHash }

/-- `Policy.Has`. -/
def Policy.hasKey (p : Policy) (keyHash : Nat) : Bool :=
  p.evict.has keyHash

/-- `Policy.Del`. -/
def Policy.del (p : Policy) (keyHash : Nat) : Policy :=
  { p with evict := p.evict.del keyHash }

/-- `Policy.NumEntries`. -/
def Policy.numEntries (p : Policy) : Int :=
  p.evict.numEntries

end GoPolicy

namespace MCache

/-! ## Sharded store, cache facade and iterator (src/internal/store/sharded.go,
src/cache.go, src/iterator.go)

Shard maps become association lists (one fixed iteration order, a legal
refinement of Go's unspecified map order).  The global cached clock is
an explicit `now : Int` argument at every expiry comparison.  The write
coalescer is absent: the embedding models the default configuration
`BufferItems = 0`, the synchronous write path, under which `Wait` is a
no-op.  Per-shard hit/miss statistics and the user callbacks
(`OnEvict`/`OnReject`/`OnExpire`) are observational side effects with no
influence on cache state and are not modelled. -/
/-- `store.Entry`. -/
structure Entry (K V : Type) where
  key : K
  value : V
  keyHash : Nat
  expireAt : Int
  cost : Int

/-- `Entry.IsExpired` at clock value `now`. -/
def Entry.isExpired (e : Entry K V) (now : Int) : Bool :=
  0 < e.expireAt ∧ e.expireAt < now

/-- `ShardedStore`. -/
structure Store (K V : Type) where
  shards : List (List (K × Entry K V))
  shardMask : Nat
  size : Int

/-- `NewShardedStore` (hasher is threaded separately to the operations). -/
def newStore (K V : Type) (shardCount : Int) : Store K V :=
  let sc0 : Int := if shardCount ≤ 0 then 1024 else shardCount
  let sc := GoPolicy.nextPow2 sc0.toNat
  { shards := List.replicate sc [], shardMask := sc - 1, size := 0 }

def assocGet [DecidableEq K] : List (K × Entry K V) → K → Option (Entry K V)
  | [], _ => none
  | (k, e) :: rest, key => if k = key then some e else assocGet rest key

def assocSet [DecidableEq K] : List (K × Entry K V) → K → Entry K V → List (K × Entry K V)
  | [], key, e => [(key, e)]
  | (k, e1) :: rest, key, e =>
    if k = key then (k, e) :: rest else (k, e1) :: assocSet rest key e

def assocDel [DecidableEq K] : List (K × Entry K V) → K → List (K × Entry K V)
  | [], _ => []
  | (k, e1) :: rest, key => if k = key then rest else (k, e1) :: assocDel rest key

/-- `ShardedStore.GetByHash`: shard lookup plus the lazy expiry check. -/
def Store.getByHash [DecidableEq K] (st : Store K V) (key : K) (keyHash : Nat)
    (now : Int) : Option (Entry K V) :=
  let sh := st.shards.getD (keyHash &&& st.shardMask) []
  match assocGet sh key with
  | none => none
  | some e => if 0 < e.expireAt ∧ e.expireAt < now then none else some e

/-- `ShardedStore.Set`: returns the previous entry; the size counter
grows only for fresh keys.  The `KeyHash == 0` recomputation of the
source needs the hasher. -/
def Store.setE [DecidableEq K] (st : Store K V) (hasher : K → Nat) (e : Entry K V) :
    Option (Entry K V) × Store K V :=
  let e := if e.keyHash = 0 then { e with keyHash := hasher e.key } else e
  let idx := e.keyHash &&& st.shardMask
  let sh := st.shards.getD idx []
  let prev := assocGet sh e.key
  let st2 := { st with shards := st.shards.set idx (assocSet sh e.key e) }
  match prev with
  | some p => (some p, st2)
  | none => (none, { st2 with size := st2.size + 1 })

/-- `ShardedStore.DeleteByHash`. -/
def Store.deleteByHash [DecidableEq K] (st : Store K V) (key : K) (keyHash : Nat) :
    Option (Entry K V) × Store K V :=
  let idx := keyHash &&& st.shardMask
  let sh := st.shards.getD idx []
  match assocGet sh key with
  | none => (none, st)
  | some e =>
    (some e,
      { st with shards := st.shards.set idx (assocDel sh key), size := st.size - 1 })

/-- `ShardedStore.Range`, as the visited entry sequence. -/
def Store.rangeEntries (st : Store K V) : List (Entry K V) :=
  st.shards.flatMap (fun sh => sh.map Prod.snd)

/-- `ShardedStore.Clear`. -/
def Store.clearStore (st : Store K V) : Store K V :=
  { st with shards := List.replicate st.shards.length [], size := 0 }

/-- The per-shard item walk of `ShardedStore.Scan`: skip to `itemIdx`,
then append until `count` is reached, returning the resume cursor. -/
def scanShard (count : Int) (itemIdx : Nat) (shardIdx : Nat) :
    List (K × Entry K V) → Nat → List (Entry K V) → List (Entry K V) × Option Nat
  | [], _, acc => (acc, none)
  | (_, e) :: rest, idx, acc =>
    if itemIdx ≤ idx then
      let acc2 := acc ++ [e]
      if count ≤ (acc2.length : Int) then (acc2, some ((shardIdx <<< 32) ||| (idx + 1)))
      else scanShard count itemIdx shardIdx rest (idx + 1) acc2
    else scanShard count itemIdx shardIdx rest (idx + 1) acc

/-- The shard walk of `ShardedStore.Scan`; the fuel is the number of
shards still to visit, exactly the Go loop's trip count. -/
def scanLoop (st : Store K V) (count : Int) :
    Nat → Nat → Nat → List (Entry K V) → List (Entry K V) × Nat
  | 0, _, _, entries => (entries, 0)
  | fuel + 1, shardIdx, itemIdx, entries =>
    if shardIdx < st.shards.length ∧ (entries.length : Int) < count then
      let sh := st.shards.getD shardIdx []
      match scanShard count itemIdx shardIdx sh 0 entries with
      | (entries2, some cur) => (entries2, cur)
      | (entries2, none) => scanLoop st count fuel (shardIdx + 1) 0 entries2
    else (entries, 0)

/-- `ShardedStore.Scan`. -/
def Store.scan (st : Store K V) (cursor : Nat) (count : Int) : List (Entry K V) × Nat :=
  let count := if count ≤ 0 then 10 else count
  scanLoop st count (st.shards.length + 1) (cursor >>> 32) (cursor &&& 0xFFFFFFFF) []

/-- `Metrics` (metrics.go): the atomic counter block. -/
structure Metrics where
  hits : Int
  misses : Int
  sets : Int
  dels : Int
  evictions : Int
  expirations : Int
  rejections : Int
  costAdded : Int
  costEvicted : Int

def newMetrics : Metrics :=
  ⟨0, 0, 0, 0, 0, 0, 0, 0, 0⟩

/-- Cache configuration (config struct); only the fields the modelled
operations read.  `bufferItems` is fixed to the default 0 (synchronous
writes); `isStringKey` is the `K = string` type test of the source,
with `toStr` the corresponding conversion. -/
structure Config (V : Type) where
  maxEntries : Int
  maxCost : Int
  numCounters : Int
  shardCount : Int
  defaultTTL : Int
  costFunc : Option (V → Int)
  isStringKey : Bool

/-- `Cache`. -/
structure Cache (K V : Type) where
  store : Store K V
  policy : GoPolicy.Policy
  radix : Radix.Tree
  metrics : Metrics
  closed : Bool
  cfg : Config V

/-- `NewCache` (sketch seeds are parameters, as in the policy). -/
def newCache (K V : Type) (cfg : Config V) (seeds : List Nat) : Cache K V :=
  let nc : Int :=
    if cfg.numCounters ≤ 0 then
      if 0 < cfg.maxEntries then cfg.maxEntries * 10 else 2 ^ 20
    else cfg.numCounters
  { store := newStore K V cfg.shardCount
    policy := GoPolicy.newPolicy nc cfg.maxCost cfg.maxEntries seeds
    radix := Radix.Tree.new
    metrics := newMetrics
    closed := false
    cfg := { cfg with numCounters := nc } }

/-- `Cache.Get`: closed guard, store lookup with lazy expiry, frequency
access and hit/miss counters. -/
def cacheGet [DecidableEq K] (c : Cache K V) (hasher : K → Nat) (k : K) (now : Int) :
    Option V × Cache K V :=
  if c.closed then (none, c)
  else
    let h := hasher k
    match c.store.getByHash k h now with
    | none => (none, { c with metrics := { c.metrics with misses := c.metrics.misses + 1 } })
    | some e =>
      (some e.value,
        { c with policy := c.policy.access h
                 metrics := { c.metrics with hits := c.metrics.hits + 1 } })

/-- `Cache.evictByHash`: linear range scan for the hash, then delete
from store and radix tree, with eviction metrics. -/
def evictByHash [DecidableEq K] (c : Cache K V) (toStr : K → List Char) (h : Nat) :
    Cache K V :=
  match c.store.rangeEntries.find? (fun e => e.keyHash == h) with
  | none => c
  | some found =>
    let dp := c.store.deleteByHash found.key h
    match dp.1 with
    | none => c
    | some del =>
      let c := { c with store := dp.2 }
      let c :=
        if c.cfg.isStringKey then { c with radix := (c.radix.del (toStr found.key)).1 }
        else c
      { c with metrics :=
          { c.metrics with evictions := c.metrics.evictions + 1
                           costEvicted := c.metrics.costEvicted + del.cost } }

/-- `Cache.doSet`: admission first, then victim eviction, store write,
radix insert and metrics. -/
def doSet [DecidableEq K] (c : Cache K V) (hasher : K → Nat) (toStr : K → List Char)
    (e : Entry K V) : Bool × Cache K V :=
  let pa := c.policy.add e.keyHash e.cost
  let c := { c with policy := pa.1 }
  if pa.2.2 = false then
    (false, { c with metrics := { c.metrics with rejections := c.metrics.rejections + 1 } })
  else
    let c := pa.2.1.foldl (fun c h => evictByHash c toStr h) c
    let sp := c.store.setE hasher e
    let c := { c with store := sp.2 }
    let c :=
      if c.cfg.isStringKey then { c with radix := c.radix.insert (toStr e.key) e.keyHash }
      else c
    (true, { c with metrics :=
        { c.metrics with sets := c.metrics.sets + 1
                         costAdded := c.metrics.costAdded + e.cost } })

/-- `Cache.SetWithCost` on the synchronous path: closed guard, cost
defaulting, default TTL, absolute deadline. -/
def setWithCost [DecidableEq K] (c : Cache K V) (hasher : K → Nat) (toStr : K → List Char)
    (k : K) (v : V) (cost ttl now : Int) : Bool × Cache K V :=
  if c.closed then (false, c)
  else
    let cost := if cost ≤ 0 then (match c.cfg.costFunc with | some f => f v | none => 1) else cost
    let ttl := if ttl = 0 ∧ 0 < c.cfg.defaultTTL then c.cfg.defaultTTL else ttl
    let expireAt := if 0 < ttl then now + ttl else 0
    doSet c hasher toStr ⟨k, v, hasher k, expireAt, cost⟩

/-- `Cache.Set` = `SetWithCost` with cost 1. -/
def cacheSet [DecidableEq K] (c : Cache K V) (hasher : K → Nat) (toStr : K → List Char)
    (k : K) (v : V) (ttl now : Int) : Bool × Cache K V :=
  setWithCost c hasher toStr k v 1 ttl now

/-- `Cache.doDelete`. -/
def doDelete [DecidableEq K] (c : Cache K V) (toStr : K → List Char) (k : K) (h : Nat) :
    Bool × Cache K V :=
  let dp := c.store.deleteByHash k h
  match dp.1 with
  | none => (false, c)
  | some _ =>
    let c := { c with store := dp.2, policy := c.policy.del h }
    let c :=
      if c.cfg.isStringKey then { c with radix := (c.radix.del (toStr k)).1 }
      else c
    (true, { c with metrics := { c.metrics with dels := c.metrics.dels + 1 } })

/-- `Cache.Delete` (synchronous path). -/
def cacheDelete [DecidableEq K] (c : Cache K V) (hasher : K → Nat) (toStr : K → List Char)
    (k : K) : Bool × Cache K V :=
  if c.closed then (false, c)
  else doDelete c toStr k (hasher k)

/-- `Cache.Has`. -/
def cacheHas [DecidableEq K] (c : Cache K V) (hasher : K → Nat) (k : K) (now : Int) : Bool :=
  if c.closed then false
  else (c.store.getByHash k (hasher k) now).isSome

/-- `Cache.Len`: reads the store size with no closed guard. -/
def cacheLen (c : Cache K V) : Int :=
  c.store.size

/-- `TinyLFU.Clear` / `SampledLFU.Clear` / `Policy.Clear`. -/
def policyClear (p : GoPolicy.Policy) : GoPolicy.Policy :=
  { tiny := { p.tiny with freq := p.tiny.freq.clear
                          door := GoPolicy.bloomReset p.tiny.door
                          incrs := 0 }
    evict := { p.evict with keyCosts := [], usedCost := 0, numEntries := 0 } }

/-- `Cache.Clear`: store, policy, radix tree and metrics are all reset,
with no closed guard (`Wait` is a no-op on the synchronous path). -/
def cacheClear (c : Cache K V) : Cache K V :=
  { c with store := c.store.clearStore
           policy := policyClear c.policy
           radix := ⟨Radix.RNode.node [] false 0 .nil, 0⟩
           metrics := newMetrics }

/-- `Cache.Close`: flips the closed flag; a second call is a no-op. -/
def cacheClose (c : Cache K V) : Cache K V :=
  if c.closed then c else { c with closed := true }

/-- The iterator (iterator.go); `noCache` models `newEmptyIterator`'s
nil cache pointer. -/
structure Iter (K V : Type) where
  cursor : Nat
  count : Int
  pfx : List Char
  pattern : Option Glob.Pattern
  page : List (Entry K V)
  pos : Nat
  err : Option Glob.GlobErr
  done : Bool
  noCache : Bool

/-- `newIterator`. -/
def newIterator (K V : Type) (cursor : Nat) (count : Int) (pfx : List Char)
    (pattern : Option Glob.Pattern) : Iter K V :=
  let count := if count ≤ 0 then 10 else count
  ⟨cursor, count, pfx, pattern, [], 0, none, false, false⟩

/-- `newEmptyIterator`: terminal from the start, with no error set. -/
def newEmptyIter (K V : Type) : Iter K V :=
  ⟨0, 0, [], none, [], 0, none, true, true⟩

/-- `Iterator.Err`. -/
def Iter.iterErr (it : Iter K V) : Option Glob.GlobErr :=
  it.err

/-- `Iterator.matchEntry`: expiry filter plus the optional glob filter
on string keys. -/
def matchEntry (it : Iter K V) (isStringKey : Bool) (toStr : K → List Char)
    (e : Entry K V) (now : Int) : Bool :=
  if e.isExpired now then false
  else
    match it.pattern with
    | some pat => if isStringKey then Glob.patMatch pat (toStr e.key) else true
    | none => true

/-- The filtering loop of `fetchPage`: keep matching entries until the
page size is reached. -/
def filterPage (it : Iter K V) (isStringKey : Bool) (toStr : K → List Char) (now : Int) :
    List (Entry K V) → List (Entry K V) → List (Entry K V)
  | [], acc => acc
  | e :: rest, acc =>
    if matchEntry it isStringKey toStr e now then
      let acc2 := acc ++ [e]
      if it.count ≤ (acc2.length : Int) then acc2
      else filterPage it isStringKey toStr now rest acc2
    else filterPage it isStringKey toStr now rest acc

/-- The entry-by-hash search of `fetchPrefixPage` (a `Range` that stops
at the first hash match). -/
def findEntryByHash (c : Cache K V) (h : Nat) : Option (Entry K V) :=
  c.store.rangeEntries.find? (fun e => e.keyHash == h)

/-- The collection loop of `fetchPrefixPage` over the hash window. -/
def collectPfxEntries (c : Cache K V) (it : Iter K V) (toStr : K → List Char) (now : Int) :
    List Nat → List (Entry K V) → List (Entry K V)
  | [], acc => acc
  | h :: rest, acc =>
    if it.count ≤ (acc.length : Int) then acc
    else
      match findEntryByHash c h with
      | none => collectPfxEntries c it toStr now rest acc
      | some e =>
        if matchEntry it c.cfg.isStringKey toStr e now then
          collectPfxEntries c it toStr now rest (acc ++ [e])
        else collectPfxEntries c it toStr now rest acc

/-- `Iterator.fetchPrefixPage`. -/
def fetchPfxPage (it : Iter K V) (c : Cache K V) (toStr : K → List Char) (now : Int) :
    Bool × Iter K V :=
  let hashes := c.radix.findByPfx it.pfx (it.count * 2)
  if hashes.isEmpty then (false, { it with done := true })
  else
    let start := it.cursor
    if hashes.length ≤ start then (false, { it with done := true })
    else
      let entries := collectPfxEntries c it toStr now (hashes.drop start) []
      let it2 := { it with page := entries, pos := 0, cursor := start + entries.length }
      let it3 :=
        if hashes.length ≤ start + entries.length then
          { it2 with done := entries.isEmpty }
        else it2
      (!entries.isEmpty, it3)

/-- `Iterator.fetchPage`. -/
def fetchPage (it : Iter K V) (c : Cache K V) (toStr : K → List Char) (now : Int) :
    Bool × Iter K V :=
  if it.noCache then (false, { it with done := true })
  else if it.pfx ≠ [] ∧ c.cfg.isStringKey then fetchPfxPage it c toStr now
  else
    let sc := c.store.scan it.cursor (it.count * 2)
    if sc.1.isEmpty then (false, { it with done := true })
    else
      let filtered := filterPage it c.cfg.isStringKey toStr now sc.1 []
      let it2 := { it with page := filtered, pos := 0, cursor := sc.2 }
      let it3 := if sc.2 = 0 then { it2 with done := filtered.isEmpty } else it2
      (!filtered.isEmpty, it3)

/-- `Iterator.Next`. -/
def iterNext [DecidableEq K] (it : Iter K V) (c : Cache K V) (toStr : K → List Char)
    (now : Int) : Bool × Iter K V :=
  if it.done || it.err.isSome then (false, it)
  else
    let it := { it with pos := it.pos + 1 }
    if it.page.length ≤ it.pos then fetchPage it c toStr now
    else (true, it)

/-- `Cache.Scan`: no closed guard. -/
def cacheScan (c : Cache K V) (cursor : Nat) (count : Int) : Iter K V :=
  newIterator K V cursor count [] none

/-- `Cache.ScanMatch`: compile failures are swallowed into the empty
iterator (whose `err` field stays `none`). -/
def scanMatch (c : Cache K V) (pattern : List Char) (cursor : Nat) (count : Int) :
    Iter K V :=
  if ¬ c.cfg.isStringKey then newEmptyIter K V
  else
    match Glob.Compile pattern with
    | .error _ => newEmptyIter K V
    | .ok pat => newIterator K V cursor count pat.pfx (some pat)

end MCache

def c2Config : MCache.Config Nat :=
  ⟨1, 0, 0, 1, 0, none, false⟩

def c2Hasher : Nat → Nat :=
  fun n => n

def c2ToStr : Nat → List Char :=
  fun _ => []

def c2Cache0 : MCache.Cache Nat Nat :=
  MCache.newCache Nat Nat c2Config [1, 2, 3, 4]

/-- The failing seven-set sequence for C2: three sets of key 1, three of
key 2 (making both hot), then one set of the cold key 3. -/
def c2CacheFinal : MCache.Cache Nat Nat :=
  let c := (MCache.cacheSet c2Cache0 c2Hasher c2ToStr 1 10 0 100).2
  let c := (MCache.cacheSet c c2Hasher c2ToStr 1 10 0 100).2
  let c := (MCache.cacheSet c c2Hasher c2ToStr 1 10 0 100).2
  let c := (MCache.cacheSet c c2Hasher c2ToStr 2 20 0 100).2
  let c := (MCache.cacheSet c c2Hasher c2ToStr 2 20 0 100).2
  let c := (MCache.cacheSet c c2Hasher c2ToStr 2 20 0 100).2
  (MCache.cacheSet c c2Hasher c2ToStr 3 30 0 100).2

def c4CacheOpen : MCache.Cache Nat Nat :=
  (MCache.cacheSet c2Cache0 c2Hasher c2ToStr 5 55 0 100).2

def c4CacheClosed : MCache.Cache Nat Nat :=
  MCache.cacheClose c4CacheOpen

def c5Config : MCache.Config Nat :=
  ⟨0, 0, 0, 1, 0, none, true⟩

def c5Cache : MCache.Cache (List Char) Nat :=
  MCache.newCache (List Char) Nat c5Config [1, 2, 3, 4]

namespace MCache

/-- The store facts the round-trip argument needs: mask and shard list
agree, and each shard's keys are distinct. -/
def StoreOK (st : Store K V) : Prop :=
  st.shardMask + 1 = st.shards.length ∧
  ∀ sh ∈ st.shards, (sh.map Prod.fst).Nodup

end MCache

def c3Config : MCache.Config Nat :=
  { maxEntries := 0, maxCost := 0, numCounters := 4, shardCount := 2,
    defaultTTL := 0, costFunc := none, isStringKey := false }

def c3Hasher : Nat → Nat :=
  fun n => n

def c3ToStr : Nat → List Char :=
  fun _ => []

def c3Cache : MCache.Cache Nat Nat :=
  MCache.newCache Nat Nat c3Config [1, 2, 3, 4]

def c8Pat : Glob.Pattern :=
  ⟨['a', 'b', '*'], ['a', 'b'], [Glob.Segment.lit ['a', 'b'], Glob.Segment.star], false⟩

def c6Sketch : GoPolicy.CmSketch :=
  { width := 2, seeds := [0, 0, 0, 0], rows := [[255], [255], [255], [255]] }

def c6SketchLF : GoPolicy.CmSketchLF :=
  { width := 2, seeds := [0, 0, 0, 0], rows := [[3], [3], [3], [3]] }

def c7Tree : Radix.Tree :=
  (Radix.Tree.new.insert ['a', 'b'] 7).insert ['a', 'c', 'd'] 9

theorem nat_and_two_pow_sub_one (x k : Nat) : x &&& (2 ^ k - 1) = x % 2 ^ k :=
  Nat.and_pow_two_sub_one_eq_mod x k

theorem nat_and_255 (x : Nat) : x &&& 255 = x % 256 := by
  have h := Nat.and_pow_two_sub_one_eq_mod x 8
  norm_num at h
  exact h

theorem nat_and_15 (x : Nat) : x &&& 15 = x % 16 := by
  have h := Nat.and_pow_two_sub_one_eq_mod x 4
  norm_num at h
  exact h

theorem nat_shiftRight_div (x k : Nat) : x >>> k = x / 2 ^ k :=
  Nat.shiftRight_eq_div_pow x k

theorem nat_shiftLeft_mul (x k : Nat) : x <<< k = x * 2 ^ k :=
  Nat.shiftLeft_eq x k

/-- Disjoint OR of a low part and a shifted part is addition. -/
theorem lor_shiftLeft_eq_add {x : Nat} (y k : Nat) (hx : x < 2 ^ k) :
    x ||| (y <<< k) = x + y * 2 ^ k := by
  apply Nat.eq_of_testBit_eq
  intro i
  rw [Nat.testBit_lor, Nat.testBit_shiftLeft]
  have hsum : x + y * 2 ^ k = 2 ^ k * y + x := by ring
  rw [hsum, Nat.testBit_mul_pow_two_add y hx i]
  rcases lt_or_ge i k with hik | hik
  · have h1 : ¬ i ≥ k := by omega
    simp [hik, h1]
  · have h1 : x.testBit i = false :=
      Nat.testBit_eq_false_of_lt (lt_of_lt_of_le hx (Nat.pow_le_pow_right (by norm_num) hik))
    have h2 : ¬ i < k := by omega
    simp [h1, h2, hik]

/-- OR into an all-zero middle field: if `x = lo + hi·2^(p+q)` with
`lo < 2^p` and `mid < 2^q`, then `x ||| (mid <<< p)` fills the middle field. -/
theorem lor_mid_bits (lo mid hi p q : Nat) (hlo : lo < 2 ^ p) (hmid : mid < 2 ^ q) :
    (lo + hi * 2 ^ (p + q)) ||| (mid <<< p) = lo + mid * 2 ^ p + hi * 2 ^ (p + q) := by
  have hx : lo + mid * 2 ^ p < 2 ^ (p + q) := by
    have h1 : mid * 2 ^ p ≤ (2 ^ q - 1) * 2 ^ p :=
      Nat.mul_le_mul_right _ (by omega)
    have h2 : 2 ^ (p + q) = 2 ^ q * 2 ^ p := by
      rw [Nat.pow_add, Nat.mul_comm]
    have hq : 1 ≤ 2 ^ q := Nat.one_le_two_pow
    have h3 : (2 ^ q - 1) * 2 ^ p = 2 ^ q * 2 ^ p - 2 ^ p := by
      rw [Nat.sub_mul, Nat.one_mul]
    have h4 : 2 ^ p ≤ 2 ^ q * 2 ^ p := Nat.le_mul_of_pos_left _ (by positivity)
    omega
  have e1 : lo + hi * 2 ^ (p + q) = lo ||| (hi <<< (p + q)) := by
    rw [lor_shiftLeft_eq_add hi (p + q)
      (lt_of_lt_of_le hlo (Nat.pow_le_pow_right (by norm_num) (Nat.le_add_right p q)))]
  rw [e1, Nat.lor_comm lo (hi <<< (p + q)), Nat.lor_assoc,
    Nat.lor_comm (hi <<< (p + q)) (lo ||| (mid <<< p)),
    lor_shiftLeft_eq_add mid p hlo, lor_shiftLeft_eq_add hi (p + q) hx]

/-- AND with a contiguous shifted mask extracts a bit field. -/
theorem and_shiftLeft_mask (x a k : Nat) :
    x &&& ((2 ^ a - 1) <<< k) = (x / 2 ^ k % 2 ^ a) * 2 ^ k := by
  have hbit : x &&& ((2 ^ a - 1) <<< k) = ((x >>> k) &&& (2 ^ a - 1)) <<< k := by
    apply Nat.eq_of_testBit_eq
    intro i
    simp only [Nat.testBit_and, Nat.testBit_shiftLeft, Nat.testBit_shiftRight,
      Nat.testBit_two_pow_sub_one]
    by_cases hk : i ≥ k
    · have h : k + (i - k) = i := by omega
      rw [h]
      simp [hk, Bool.and_comm, Bool.and_assoc, Bool.and_left_comm]
    · simp [hk]
  rw [hbit, nat_shiftRight_div, nat_and_two_pow_sub_one, nat_shiftLeft_mul]

namespace Glob

theorem unescape_cons_ne (c : Char) (l : List Char) (hc : ¬ c = '\\') :
    unescape (c :: l) = c :: unescape l := by
  rw [unescape.eq_def]
  split
  · simp_all
  · simp_all
  · simp_all

theorem extractPfx_eq_unescape_takeLit :
    ∀ (l : List Char), extractPfx l = unescape (takeLit l).1 := by
  suffices h : ∀ n (l : List Char), l.length ≤ n → extractPfx l = unescape (takeLit l).1 by
    exact fun l => h l.length l le_rfl
  intro n
  induction n with
  | zero =>
    intro l hl
    have hnil : l = [] := by cases l <;> simp_all
    subst hnil
    simp [extractPfx, takeLit, unescape]
  | succ n ih =>
    intro l hl
    match l with
    | [] => simp [extractPfx, takeLit, unescape]
    | c :: rest =>
      rw [extractPfx.eq_def, takeLit.eq_def]
      by_cases hs : c = '*' ∨ c = '?' ∨ c = '['
      · simp only [if_pos hs]
        simp [unescape]
      · by_cases hb : c = '\\'
        · subst hb
          match rest with
          | [] => simp [if_neg hs, unescape]
          | d :: rest2 =>
            have h2 := ih rest2 (by simp at hl ⊢; omega)
            simp only [if_neg hs, if_pos rfl]
            simp only [unescape]
            simp [h2]
        · have h2 := ih rest (by simp at hl ⊢; omega)
          simp only [if_neg hs, if_neg hb]
          rw [unescape_cons_ne c _ hb, h2]

theorem extractPfx_special (c : Char) (rest : List Char)
    (hs : c = '*' ∨ c = '?' ∨ c = '[') : extractPfx (c :: rest) = [] := by
  rw [extractPfx.eq_def]
  simp only [if_pos hs]

theorem parseSegs_lit_shape (fuel : Nat) (c : Char) (rest : List Char) (segs : List Segment)
    (hs : ¬ (c = '*' ∨ c = '?' ∨ c = '['))
    (hp : parseSegs fuel (c :: rest) = some segs) :
    ∃ segs2, segs = .lit (unescape (takeLit (c :: rest)).1) :: segs2 := by
  match fuel with
  | 0 => simp [parseSegs] at hp
  | fuel + 1 =>
    push_neg at hs
    rw [parseSegs.eq_def] at hp
    simp only [if_neg hs.1, if_neg hs.2.1, if_neg hs.2.2] at hp
    cases hrec : parseSegs fuel (takeLit (c :: rest)).2 with
    | none => rw [hrec] at hp; simp at hp
    | some segs2 =>
      rw [hrec] at hp
      simp at hp
      exact ⟨segs2, hp.symm⟩

theorem matchSegs_lit_isPfx (l : List Char) (rest : List Segment) (key : List Char)
    (hm : matchSegs (.lit l :: rest) key = true) : l <+: key := by
  rw [matchSegs.eq_def] at hm
  simp only [] at hm
  split at hm
  · exact absurd hm (by simp)
  · split at hm
    · exact absurd hm (by simp)
    · rename_i hlen htake
      rw [not_not] at htake
      rw [← htake]
      exact List.take_prefix _ _

end Glob

namespace GoPolicy

/-! ## Helper lemmas for the claim theorems -/
theorem lookupCost_setCost_self (l : List (Nat × Int)) (h : Nat) (c : Int) :
    lookupCost (setCost l h c) h = some c := by
  induction l with
  | nil => simp [setCost, lookupCost]
  | cons p rest ih =>
    rcases p with ⟨k, v⟩
    by_cases hk : k = h
    · simp [setCost, lookupCost, hk]
    · simp [setCost, lookupCost, hk, ih]

theorem lookupCost_append_none (l : List (Nat × Int)) (h : Nat) (c : Int)
    (hl : lookupCost l h = none) :
    lookupCost (l ++ [(h, c)]) h = some c := by
  induction l with
  | nil => simp [lookupCost]
  | cons p rest ih =>
    rcases p with ⟨k, v⟩
    by_cases hk : k = h
    · simp [lookupCost, hk] at hl
    · simp [lookupCost, hk] at hl ⊢
      exact ih hl

/-- After `SampledLFU.Add` the key is always tracked. -/
theorem sampled_add_has (s : SampledLFU) (h : Nat) (c : Int) :
    (s.add h c).has h = true := by
  rw [SampledLFU.add]
  cases hl : lookupCost s.keyCosts h with
  | some v => simp [SampledLFU.has, lookupCost_setCost_self]
  | none => simp [SampledLFU.has, lookupCost_append_none _ _ _ hl]

/-- After `SampledLFU.Update` of a tracked key it stays tracked. -/
theorem sampled_update_has (s : SampledLFU) (h : Nat) (c : Int)
    (hh : s.has h = true) : (s.update h c).has h = true := by
  rw [SampledLFU.update]
  cases hl : lookupCost s.keyCosts h with
  | some v => simp [SampledLFU.has, lookupCost_setCost_self]
  | none => simp [SampledLFU.has, lookupCost] at hh ⊢; simp_all

/-- `Policy.Add` returns `added = true` on every input: the rejection
path of its documented contract is unreachable. -/
theorem policy_add_added (p : Policy) (h : Nat) (cost : Int) :
    (p.add h cost).2.2 = true := by
  rw [Policy.add]
  by_cases hh : p.evict.has h <;> simp [hh]

/-- `Policy.Add` always leaves the key tracked by the evictor. -/
theorem policy_add_tracks (p : Policy) (h : Nat) (cost : Int) :
    ((p.add h cost).1.evict.has h) = true := by
  rw [Policy.add]
  by_cases hh : p.evict.has h
  · simp [hh]
    exact sampled_update_has _ _ _ hh
  · simp [hh]
    exact sampled_add_has _ _ _

end GoPolicy

namespace Radix

theorem commonPrefixLen_self (l : List Char) : commonPrefixLen l l = l.length := by
  induction l with
  | nil => rfl
  | cons c rest ih => simp [commonPrefixLen, ih]

end Radix

/-! ## Claim theorems -/
/-- C10: when no key hasher is configured and the key type is not one of
string, int, int64, uint64, int32, uint32, the store's `defaultHash`
returns the FNV-1a hash of the empty string for every key, so all such
keys collide and land in the same shard. -/
theorem c10_defaultHash_constant_for_other_types :
    ∀ (r1 r2 : Nat),
      GoHash.defaultHash (.other r1) = GoHash.defaultHash (.other r2) ∧
      GoHash.defaultHash (.other r1) = GoHash.hashString [] ∧
      ∀ mask : Nat,
        GoHash.defaultHash (.other r1) &&& mask = GoHash.defaultHash (.other r2) &&& mask :=
  fun _ _ => ⟨rfl, rfl, fun _ => rfl⟩

namespace Radix

theorem insertKids_found_recurse (c : Char) (child : RNode) (rest : RKids)
    (key : List Char) (h : Nat)
    (hcl : commonPrefixLen child.pfx key = child.pfx.length) :
    insertKids (.cons c child rest) c key h
      = .cons c (insertNode child (key.drop (commonPrefixLen child.pfx key)) h) rest := by
  conv_lhs => rw [insertKids]
  simp [hcl]

end Radix

/-- C9: radix `Tree.Insert` bumps the size counter unconditionally — a
re-insert of an existing key still counts, so two inserts of the same
key leave `Size() = 2` while the tree stores exactly one key. -/
theorem c9_insert_size_unconditional :
    (∀ (t : Radix.Tree) (k : List Char) (h : Nat),
        (t.insert k h).treeSize = t.treeSize + 1) ∧
    ∀ (k : List Char) (h1 h2 : Nat),
      ((Radix.Tree.new.insert k h1).insert k h2).treeSize = 2 ∧
      Radix.entriesN ((Radix.Tree.new.insert k h1).insert k h2).root = [(k, h2)] := by
  constructor
  · intro t k h
    rfl
  · intro k h1 h2
    refine ⟨rfl, ?_⟩
    cases k with
    | nil => rfl
    | cons c krest =>
      show Radix.entriesN
        (Radix.insertNode (Radix.insertNode (.node [] false 0 .nil) (c :: krest) h1)
          (c :: krest) h2) = _
      have e1 : Radix.insertNode (.node [] false 0 .nil) (c :: krest) h1
          = .node [] false 0 (.cons c (.node (c :: krest) true h1 .nil) .nil) := rfl
      rw [e1]
      have e2 : Radix.insertNode
            (.node [] false 0 (.cons c (.node (c :: krest) true h1 .nil) .nil))
            (c :: krest) h2
          = .node [] false 0
              (Radix.insertKids (.cons c (.node (c :: krest) true h1 .nil) .nil)
                c (c :: krest) h2) := rfl
      rw [e2, Radix.insertKids_found_recurse]
      · have e3 : Radix.commonPrefixLen
            (Radix.RNode.pfx (.node (c :: krest) true h1 .nil)) (c :: krest)
            = (c :: krest).length := by
          simp [Radix.RNode.pfx, Radix.commonPrefixLen_self]
        rw [e3, List.drop_length]
        simp [Radix.entriesN, Radix.entriesKids, Radix.insertNode, Radix.RNode.pfx]
      · simp [Radix.RNode.pfx, Radix.commonPrefixLen_self]

/-- C1 (code bug): the composite policy's `Add` can never reject: both
implementations return `added = true` on every path and uncondition-
ally insert the incoming hash into the evictor, so the documented
rejection contract ("added will be false") and the `on_reject` path in
`doSet` are unreachable. -/
theorem c1_policy_add_never_rejects :
    ∀ (p : GoPolicy.Policy) (h : Nat) (cost : Int),
      (p.add h cost).2.2 = true ∧ (p.add h cost).1.evict.has h = true :=
  fun p h cost => ⟨GoPolicy.policy_add_added p h cost, GoPolicy.policy_add_tracks p h cost⟩

/-- C2 (code bug): with `max_entries = 1`, synchronous writes (the
default `BufferItems = 0`, under which `wait` is a no-op) and the
seven-set sequence above, `len()` reaches 3 > `max_entries + 1`: the
eviction loop breaks out on the failed admission check but the caller
still inserts, so the entry bound is not maintained. -/
theorem c2_len_bound_violated :
    c2CacheFinal.cfg.maxEntries = 1 ∧
    MCache.cacheLen c2CacheFinal = 3 ∧
    ¬ (MCache.cacheLen c2CacheFinal ≤ c2CacheFinal.cfg.maxEntries + 1) := by
  decide

/-- C4 counterexample: a closed cache still exposes and mutates its
data: `Len` reports the stored entry, a `Scan` iterator's `Next` yields
it, and `Clear` erases the store — all without a closed-flag guard,
contradicting "after close every cache operation is a no-op". -/
theorem c4_counterexample_scan_after_close :
    c4CacheClosed.closed = true ∧
    MCache.cacheLen c4CacheClosed = 1 ∧
    (MCache.iterNext (MCache.cacheScan c4CacheClosed 0 10) c4CacheClosed c2ToStr 100).1 = true ∧
    MCache.cacheLen c4CacheClosed ≠ 0 ∧
    (MCache.cacheClear c4CacheClosed).store.size = 0 := by
  decide

/-- C4 (amended): `close` is idempotent, and `get`, `set`, `delete` and
`has` are closed-guarded no-ops returning miss/false; but `scan`, `len`
and `clear` carry no closed-flag guard and still read or mutate the
cached data (`len` returns the live store size unchanged). -/
theorem c4_closed_guards (K V : Type) [inst : DecidableEq K] (c : MCache.Cache K V)
    (hasher : K → Nat) (toStr : K → List Char) (k : K) (v : V) (cost ttl now : Int)
    (hclosed : c.closed = true) :
    MCache.cacheClose (MCache.cacheClose c) = MCache.cacheClose c ∧
    MCache.cacheGet c hasher k now = (none, c) ∧
    MCache.setWithCost c hasher toStr k v cost ttl now = (false, c) ∧
    MCache.cacheDelete c hasher toStr k = (false, c) ∧
    MCache.cacheHas c hasher k now = false ∧
    MCache.cacheLen c = c.store.size := by
  refine ⟨?_, ?_, ?_, ?_, ?_, rfl⟩
  · simp [MCache.cacheClose, hclosed]
  · simp [MCache.cacheGet, hclosed]
  · simp [MCache.setWithCost, hclosed]
  · simp [MCache.cacheDelete, hclosed]
  · simp [MCache.cacheHas, hclosed]

/-- C4 witness: the amended theorem applied to the concrete closed
cache. -/
theorem c4_closed_guards_witness :
    MCache.cacheClose (MCache.cacheClose c4CacheClosed) = MCache.cacheClose c4CacheClosed ∧
    MCache.cacheGet c4CacheClosed c2Hasher 5 100 = (none, c4CacheClosed) ∧
    MCache.setWithCost c4CacheClosed c2Hasher c2ToStr 5 55 1 0 100 = (false, c4CacheClosed) ∧
    MCache.cacheDelete c4CacheClosed c2Hasher c2ToStr 5 = (false, c4CacheClosed) ∧
    MCache.cacheHas c4CacheClosed c2Hasher 5 100 = false ∧
    MCache.cacheLen c4CacheClosed = c4CacheClosed.store.size :=
  c4_closed_guards Nat Nat c4CacheClosed c2Hasher c2ToStr 5 55 1 0 100 (by decide)

/-- C5 counterexample: `ScanMatch` on the malformed pattern `[` returns
the plain empty iterator: it yields no entries, but its error accessor
returns nil instead of the compile error, contradicting "its error
accessor (Err) returns the pattern-compilation error (a non-nil
error)". -/
theorem c5_counterexample_err_discarded :
    (Glob.Compile ['['] matches Except.error Glob.GlobErr.unmatchedBrace) = true ∧
    (MCache.scanMatch c5Cache ['['] 0 10).iterErr = none ∧
    (MCache.iterNext (MCache.scanMatch c5Cache ['['] 0 10) c5Cache id 0).1 = false := by
  decide

/-- C5 (amended): for every malformed glob pattern, `ScanMatch` yields
the terminal empty iterator: it is done from the start and yields no
entries, but the compilation error is discarded and the iterator's
error accessor returns nil. -/
theorem c5_scanmatch_swallows_error (K V : Type) [inst : DecidableEq K]
    (c c2 : MCache.Cache K V) (toStr : K → List Char) (now : Int)
    (pattern : List Char) (cursor : Nat) (count : Int) (e : Glob.GlobErr)
    (hc : Glob.Compile pattern = .error e) :
    (MCache.scanMatch c pattern cursor count).done = true ∧
    (MCache.scanMatch c pattern cursor count).iterErr = none ∧
    (MCache.iterNext (MCache.scanMatch c pattern cursor count) c2 toStr now).1 = false := by
  rw [MCache.scanMatch]
  by_cases hs : c.cfg.isStringKey
  · simp [hs, hc, MCache.newEmptyIter, MCache.Iter.iterErr, MCache.iterNext]
  · simp [hs, MCache.newEmptyIter, MCache.Iter.iterErr, MCache.iterNext]

/-- C5 witness: the amended theorem applied to the malformed pattern
`[` on the concrete string-keyed cache. -/
theorem c5_scanmatch_swallows_error_witness :
    (MCache.scanMatch c5Cache ['['] 0 10).done = true ∧
    (MCache.scanMatch c5Cache ['['] 0 10).iterErr = none ∧
    (MCache.iterNext (MCache.scanMatch c5Cache ['['] 0 10) c5Cache id 0).1 = false :=
  c5_scanmatch_swallows_error (List Char) Nat c5Cache c5Cache id 0 ['['] 0 10
    .unmatchedBrace (by rfl)

namespace MCache

theorem getD_set_self {α : Type} (l : List α) (i : Nat) (x d : α) (h : i < l.length) :
    (l.set i x).getD i d = x := by
  rw [List.getD_eq_getElem?_getD, List.getElem?_set_self]
  · rfl
  · simpa using h

theorem assocGet_assocSet_self [DecidableEq K] (l : List (K × Entry K V)) (k : K)
    (e : Entry K V) : assocGet (assocSet l k e) k = some e := by
  induction l with
  | nil => simp [assocSet, assocGet]
  | cons p rest ih =>
    rcases p with ⟨k1, e1⟩
    by_cases hk : k1 = k
    · simp [assocSet, assocGet, hk]
    · simp [assocSet, assocGet, hk, ih]

theorem assocSet_keys [DecidableEq K] (l : List (K × Entry K V)) (k : K) (e : Entry K V) :
    ((assocSet l k e).map Prod.fst) = if k ∈ l.map Prod.fst then l.map Prod.fst
      else l.map Prod.fst ++ [k] := by
  induction l with
  | nil => simp [assocSet]
  | cons p rest ih =>
    rcases p with ⟨k1, e1⟩
    by_cases hk : k1 = k
    · simp [assocSet, hk]
    · simp only [assocSet, if_neg hk, List.map_cons, ih]
      by_cases hm : k ∈ rest.map Prod.fst
      · simp [hm, Ne.symm hk]
      · simp [hm, Ne.symm hk]

theorem assocSet_nodup [DecidableEq K] (l : List (K × Entry K V)) (k : K) (e : Entry K V)
    (h : (l.map Prod.fst).Nodup) : ((assocSet l k e).map Prod.fst).Nodup := by
  rw [assocSet_keys]
  by_cases hm : k ∈ l.map Prod.fst
  · simpa [hm] using h
  · simp [hm]
    exact List.Nodup.append h (List.nodup_singleton k) (by simpa using hm)

theorem assocDel_sublist [DecidableEq K] (l : List (K × Entry K V)) (k : K) :
    (assocDel l k).Sublist l := by
  induction l with
  | nil => simp [assocDel]
  | cons p rest ih =>
    rcases p with ⟨k1, e1⟩
    by_cases hk : k1 = k
    · simp only [assocDel, if_pos hk]
      exact List.sublist_cons_self _ _
    · simp only [assocDel, if_neg hk]
      exact List.Sublist.cons₂ _ ih

theorem assocDel_nodup [DecidableEq K] (l : List (K × Entry K V)) (k : K)
    (h : (l.map Prod.fst).Nodup) : ((assocDel l k).map Prod.fst).Nodup :=
  List.Nodup.sublist (List.Sublist.map Prod.fst (assocDel_sublist l k)) h

theorem assocGet_assocDel_self [DecidableEq K] (l : List (K × Entry K V)) (k : K)
    (h : (l.map Prod.fst).Nodup) : assocGet (assocDel l k) k = none := by
  induction l with
  | nil => simp [assocDel, assocGet]
  | cons p rest ih =>
    rcases p with ⟨k1, e1⟩
    simp only [List.map_cons, List.nodup_cons] at h
    by_cases hk : k1 = k
    · subst hk
      simp only [assocDel, if_pos rfl]
      cases hg : assocGet rest k1 with
      | none => exact hg
      | some e2 =>
        exfalso
        apply h.1
        clear ih h
        induction rest with
        | nil => simp [assocGet] at hg
        | cons q rest2 ih2 =>
          rcases q with ⟨k2, e3⟩
          by_cases hk2 : k2 = k1
          · simp [hk2]
          · simp only [assocGet, if_neg hk2] at hg
            simp [ih2 hg]
    · simp only [assocDel, if_neg hk, assocGet, if_neg hk]
      exact ih h.2

theorem shardIdx_lt {st : Store K V} (hok : StoreOK st) (h : Nat) :
    h &&& st.shardMask < st.shards.length := by
  have h1 : h &&& st.shardMask ≤ st.shardMask := Nat.and_le_right
  have h2 := hok.1
  omega

theorem nodupShard {st : Store K V} (hok : StoreOK st) (i : Nat) :
    ((st.shards.getD i []).map Prod.fst).Nodup := by
  rcases Nat.lt_or_ge i st.shards.length with hlt | hge
  · apply hok.2
    rw [List.getD_eq_getElem?_getD, List.getElem?_eq_getElem hlt]
    exact List.getElem_mem _
  · rw [List.getD_eq_getElem?_getD, List.getElem?_eq_none (by omega)]
    simp

theorem storeOK_set {st : Store K V} (hok : StoreOK st) (i : Nat)
    (sh : List (K × Entry K V)) (hn : (sh.map Prod.fst).Nodup) :
    StoreOK { st with shards := st.shards.set i sh } := by
  refine ⟨by simpa using hok.1, ?_⟩
  intro sh2 hmem
  rcases List.mem_or_eq_of_mem_set hmem with hmem2 | rfl
  · exact hok.2 sh2 hmem2
  · exact hn

theorem storeOK_size {st : Store K V} (hok : StoreOK st) (z : Int) :
    StoreOK { st with size := z } :=
  hok

theorem storeOK_mk {st : Store K V} (hok : StoreOK st) (i : Nat)
    (sh : List (K × Entry K V)) (hn : (sh.map Prod.fst).Nodup) (z : Int) :
    StoreOK ⟨st.shards.set i sh, st.shardMask, z⟩ := by
  refine ⟨by simpa using hok.1, ?_⟩
  intro sh2 hmem
  rcases List.mem_or_eq_of_mem_set hmem with hmem2 | rfl
  · exact hok.2 sh2 hmem2
  · exact hn

theorem storeOK_setE [DecidableEq K] {st : Store K V} (hok : StoreOK st)
    (hasher : K → Nat) (e : Entry K V) : StoreOK (st.setE hasher e).2 := by
  rw [Store.setE]
  simp only []
  split
  · exact storeOK_mk hok _ _ (assocSet_nodup _ _ _ (nodupShard hok _)) _
  · exact storeOK_mk hok _ _ (assocSet_nodup _ _ _ (nodupShard hok _)) _

theorem storeOK_deleteByHash [DecidableEq K] {st : Store K V} (hok : StoreOK st)
    (k : K) (h : Nat) : StoreOK (st.deleteByHash k h).2 := by
  rw [Store.deleteByHash]
  split
  · exact hok
  · exact storeOK_mk hok _ _ (assocDel_nodup _ _ (nodupShard hok _)) _

theorem getByHash_after_setE [DecidableEq K] {st : Store K V} (hok : StoreOK st)
    (hasher : K → Nat) (e : Entry K V) (k : K) (h : Nat)
    (hk : e.key = k) (hh : e.keyHash = h) (hhh : h = hasher k) (now2 : Int)
    (hexp : ¬ (0 < e.expireAt ∧ e.expireAt < now2)) :
    ((st.setE hasher e).2).getByHash k h now2 = some e := by
  subst hk hh
  have hcanon : (if e.keyHash = 0 then { e with keyHash := hasher e.key } else e) = e := by
    split
    · rw [← hhh]
    · rfl
  rw [Store.setE]
  simp only [hcanon]
  cases hprev : assocGet (st.shards.getD (e.keyHash &&& st.shardMask) []) e.key with
  | none =>
    rw [Store.getByHash]
    simp only [getD_set_self _ _ _ _ (shardIdx_lt hok _), assocGet_assocSet_self,
      if_neg hexp]
  | some p =>
    rw [Store.getByHash]
    simp only [getD_set_self _ _ _ _ (shardIdx_lt hok _), assocGet_assocSet_self,
      if_neg hexp]

theorem getByHash_after_del [DecidableEq K] {st : Store K V} (hok : StoreOK st)
    (k : K) (h : Nat) (now2 : Int) :
    ((st.deleteByHash k h).2).getByHash k h now2 = none := by
  rw [Store.deleteByHash]
  cases hg : assocGet (st.shards.getD (h &&& st.shardMask) []) k with
  | none =>
    simp only [hg]
    rw [Store.getByHash]
    simp only [hg]
  | some e =>
    simp only [hg]
    rw [Store.getByHash]
    simp only [getD_set_self _ _ _ _ (shardIdx_lt hok _),
      assocGet_assocDel_self _ _ (nodupShard hok _)]

theorem evict_pres [DecidableEq K] (c : Cache K V) (toStr : K → List Char) (h : Nat) :
    (evictByHash c toStr h).closed = c.closed ∧
    (evictByHash c toStr h).cfg = c.cfg ∧
    (StoreOK c.store → StoreOK (evictByHash c toStr h).store) := by
  rw [evictByHash]
  cases c.store.rangeEntries.find? (fun e => e.keyHash == h) with
  | none => exact ⟨rfl, rfl, fun hk => hk⟩
  | some found =>
    simp only []
    cases hdp : (c.store.deleteByHash found.key h).1 with
    | none => exact ⟨rfl, rfl, fun hk => hk⟩
    | some del =>
      simp only []
      split
      · exact ⟨rfl, rfl, fun hk => storeOK_deleteByHash hk _ _⟩
      · exact ⟨rfl, rfl, fun hk => storeOK_deleteByHash hk _ _⟩

theorem foldl_evict_pres [DecidableEq K] (toStr : K → List Char) (l : List Nat)
    (c : Cache K V) :
    (l.foldl (fun c h => evictByHash c toStr h) c).closed = c.closed ∧
    (l.foldl (fun c h => evictByHash c toStr h) c).cfg = c.cfg ∧
    (StoreOK c.store → StoreOK ((l.foldl (fun c h => evictByHash c toStr h) c).store)) := by
  induction l generalizing c with
  | nil => exact ⟨rfl, rfl, fun hk => hk⟩
  | cons x rest ih =>
    simp only [List.foldl_cons]
    obtain ⟨h1, h2, h3⟩ := ih (evictByHash c toStr x)
    obtain ⟨g1, g2, g3⟩ := evict_pres c toStr x
    exact ⟨h1.trans g1, h2.trans g2, fun hk => h3 (g3 hk)⟩

theorem doDelete_store [DecidableEq K] (c : Cache K V) (toStr : K → List Char)
    (k : K) (h : Nat) :
    (doDelete c toStr k h).2.store = (c.store.deleteByHash k h).2 ∧
    (doDelete c toStr k h).2.closed = c.closed := by
  cases hg : assocGet (c.store.shards.getD (h &&& c.store.shardMask) []) k with
  | none =>
    have hd : c.store.deleteByHash k h = (none, c.store) := by
      rw [Store.deleteByHash]
      simp only [hg]
    rw [doDelete, hd]
    exact ⟨rfl, rfl⟩
  | some e =>
    have hd : c.store.deleteByHash k h =
        (some e,
          ⟨c.store.shards.set (h &&& c.store.shardMask)
              (assocDel (c.store.shards.getD (h &&& c.store.shardMask) []) k),
            c.store.shardMask, c.store.size - 1⟩) := by
      rw [Store.deleteByHash]
      simp only [hg]
    rw [doDelete, hd]
    simp only []
    split
    · exact ⟨rfl, rfl⟩
    · exact ⟨rfl, rfl⟩

theorem doSet_spec [DecidableEq K] (c : Cache K V) (hasher : K → Nat)
    (toStr : K → List Char) (e : Entry K V) :
    ∃ c2 : Cache K V,
      c2.closed = c.closed ∧ (StoreOK c.store → StoreOK c2.store) ∧
      (doSet c hasher toStr e).1 = true ∧
      (doSet c hasher toStr e).2.store = (c2.store.setE hasher e).2 ∧
      (doSet c hasher toStr e).2.closed = c2.closed := by
  have hpa := GoPolicy.policy_add_added c.policy e.keyHash e.cost
  refine ⟨(c.policy.add e.keyHash e.cost).2.1.foldl (fun c h => evictByHash c toStr h)
      { c with policy := (c.policy.add e.keyHash e.cost).1 }, ?_, ?_, ?_⟩
  · obtain ⟨h1, _, _⟩ := foldl_evict_pres toStr (c.policy.add e.keyHash e.cost).2.1
      { c with policy := (c.policy.add e.keyHash e.cost).1 }
    exact h1
  · obtain ⟨_, _, h3⟩ := foldl_evict_pres toStr (c.policy.add e.keyHash e.cost).2.1
      { c with policy := (c.policy.add e.keyHash e.cost).1 }
    exact h3
  · rw [doSet]
    simp only [hpa]
    split
    · rename_i hfalse
      exact Bool.noConfusion hfalse
    · split
      · exact ⟨rfl, rfl, rfl⟩
      · exact ⟨rfl, rfl, rfl⟩

end MCache

/-- C3: on a live cache whose store invariant holds and whose default
TTL is zero, a `Set(k, v, ttl)` succeeds, a `Get(k)` at any instant
allowed by the TTL (`ttl = 0` or before `set_time + ttl`) returns `v`,
and after a `Delete(k)` the same `Get(k)` misses. -/
theorem c3_set_get_delete_roundtrip (K V : Type) [inst : DecidableEq K]
    (c : MCache.Cache K V) (hasher : K → Nat) (toStr : K → List Char)
    (k : K) (v : V) (ttl now now2 : Int)
    (hclosed : c.closed = false) (hdttl : c.cfg.defaultTTL = 0)
    (hok : MCache.StoreOK c.store) (hcond : ttl = 0 ∨ now2 < now + ttl) :
    (MCache.cacheSet c hasher toStr k v ttl now).1 = true ∧
    (MCache.cacheGet (MCache.cacheSet c hasher toStr k v ttl now).2 hasher k now2).1 =
      some v ∧
    (MCache.cacheGet
        (MCache.cacheDelete (MCache.cacheSet c hasher toStr k v ttl now).2 hasher toStr k).2
        hasher k now2).1 = none := by
  have hexp : ¬ (0 < (if (0:Int) < ttl then now + ttl else 0) ∧
      (if (0:Int) < ttl then now + ttl else 0) < now2) := by
    rcases hcond with h0 | hlt <;> split <;> omega
  have hset : MCache.cacheSet c hasher toStr k v ttl now =
      MCache.doSet c hasher toStr
        ⟨k, v, hasher k, if (0:Int) < ttl then now + ttl else 0, 1⟩ := by
    rw [MCache.cacheSet, MCache.setWithCost, hclosed, hdttl]
    norm_num
  obtain ⟨c2, hcc, hcs, hd1, hd2, hd3⟩ := MCache.doSet_spec c hasher toStr
    ⟨k, v, hasher k, if (0:Int) < ttl then now + ttl else 0, 1⟩
  have hok2 : MCache.StoreOK c2.store := hcs hok
  have hSclosed : (MCache.doSet c hasher toStr
      ⟨k, v, hasher k, if (0:Int) < ttl then now + ttl else 0, 1⟩).2.closed = false :=
    hd3.trans (hcc.trans hclosed)
  refine ⟨by rw [hset]; exact hd1, ?_, ?_⟩
  · rw [hset, MCache.cacheGet]
    rw [if_neg (by simp [hSclosed])]
    simp only []
    rw [hd2]
    rw [MCache.getByHash_after_setE hok2 hasher _ k (hasher k) rfl rfl rfl now2 hexp]
  · rw [hset, MCache.cacheDelete]
    rw [if_neg (by simp [hSclosed])]
    obtain ⟨hdelS, hdelC⟩ := MCache.doDelete_store
      (MCache.doSet c hasher toStr
        ⟨k, v, hasher k, if (0:Int) < ttl then now + ttl else 0, 1⟩).2 toStr k (hasher k)
    rw [MCache.cacheGet]
    rw [if_neg (by simp [hdelC, hSclosed])]
    simp only []
    rw [hdelS, hd2]
    rw [MCache.getByHash_after_del (MCache.storeOK_setE hok2 hasher _) k (hasher k) now2]

/-- C3 witness: the round trip on a concrete two-shard cache, key 5,
value 42, no TTL. -/
theorem c3_set_get_delete_roundtrip_witness :
    (MCache.cacheSet c3Cache c3Hasher c3ToStr 5 42 0 100).1 = true ∧
    (MCache.cacheGet (MCache.cacheSet c3Cache c3Hasher c3ToStr 5 42 0 100).2
        c3Hasher 5 150).1 = some 42 ∧
    (MCache.cacheGet
        (MCache.cacheDelete (MCache.cacheSet c3Cache c3Hasher c3ToStr 5 42 0 100).2
          c3Hasher c3ToStr 5).2 c3Hasher 5 150).1 = none :=
  c3_set_get_delete_roundtrip Nat Nat c3Cache c3Hasher c3ToStr 5 42 0 100 150
    (by decide) (by decide) (by unfold MCache.StoreOK; decide) (Or.inl rfl)

/-- C8: whenever `Compile` accepts a pattern and the compiled pattern
matches a key, the pattern's literal prefix (`Prefix()`) is a prefix of
that key. -/
theorem c8_compiled_prefix_of_match (pattern : List Char) (pat : Glob.Pattern)
    (s : List Char) (hc : Glob.Compile pattern = Except.ok pat)
    (hm : Glob.patMatch pat s = true) : pat.pfx <+: s := by
  rw [Glob.Compile] at hc
  by_cases hnil : pattern = []
  · simp [hnil] at hc
  · simp only [if_neg hnil] at hc
    cases hp : Glob.parseSegs (pattern.length + 1) pattern with
    | none => rw [hp] at hc; simp at hc
    | some segs =>
      rw [hp] at hc
      have hpat : pat =
          ⟨pattern, Glob.extractPfx pattern, segs, segs.contains Glob.Segment.double⟩ := by
        cases hc
        rfl
      subst hpat
      rw [Glob.patMatch] at hm
      simp only [] at hm
      match pattern, hnil with
      | c :: rest, _ =>
        by_cases hs : c = '*' ∨ c = '?' ∨ c = '['
        · rw [Glob.extractPfx_special c rest hs]
          exact List.nil_prefix
        · obtain ⟨segs2, hsegs⟩ := Glob.parseSegs_lit_shape _ c rest segs hs hp
          rw [hsegs] at hm
          have hpfx := Glob.matchSegs_lit_isPfx _ _ _ hm
          rw [Glob.extractPfx_eq_unescape_takeLit]
          exact hpfx

/-- C8 witness: the pattern `ab*` compiles to a pattern with prefix
`ab`, matches `abc`, and `ab` is a prefix of `abc`. -/
theorem c8_compiled_prefix_of_match_witness :
    Glob.Compile ['a', 'b', '*'] = Except.ok c8Pat ∧
    Glob.patMatch c8Pat ['a', 'b', 'c'] = true ∧
    c8Pat.pfx <+: ['a', 'b', 'c'] :=
  ⟨rfl, rfl, c8_compiled_prefix_of_match ['a', 'b', '*'] c8Pat ['a', 'b', 'c'] rfl rfl⟩

theorem list_getD_map {α β : Type} (f : α → β) (l : List α) (i : Nat) (d : α) :
    (l.map f).getD i (f d) = f (l.getD i d) := by
  induction l generalizing i with
  | nil => simp [List.getD]
  | cons x xs ih =>
    cases i with
    | zero => simp
    | succ n => simpa using ih n

theorem or_sh4_low (x y : Nat) (hx : x < 16) : (x ||| (y <<< 4)) &&& 15 = x := by
  have h16 : (2 : Nat) ^ 4 = 16 := by norm_num
  rw [lor_shiftLeft_eq_add y 4 (h16 ▸ hx), nat_and_15, h16]
  omega

theorem or_sh4_high (x y : Nat) (hx : x < 16) (hy : y < 16) :
    ((x ||| (y <<< 4)) >>> 4) &&& 15 = y := by
  have h16 : (2 : Nat) ^ 4 = 16 := by norm_num
  rw [lor_shiftLeft_eq_add y 4 (h16 ▸ hx), nat_shiftRight_div, nat_and_15, h16]
  omega

theorem and240_sh4 (b : Nat) : b &&& 240 = (b / 16 % 16) <<< 4 := by
  have h : (240 : Nat) = (2 ^ 4 - 1) <<< 4 := by norm_num [Nat.shiftLeft_eq]
  rw [h, and_shiftLeft_mask, nat_shiftLeft_mul]
  norm_num

namespace GoPolicy

theorem byte_set_get (old v p : Nat) (hv : v < 256) (hp : p + 8 ≤ 32) :
    (((old &&& (4294967295 ^^^ (255 <<< p))) ||| (v <<< p)) >>> p) &&& 255 = v := by
  apply Nat.eq_of_testBit_eq
  intro i
  rw [Nat.testBit_and, Nat.testBit_shiftRight, Nat.testBit_lor, Nat.testBit_and,
    Nat.testBit_xor, Nat.testBit_shiftLeft, Nat.testBit_shiftLeft]
  have h255 : ∀ j, Nat.testBit 255 j = decide (j < 8) := fun j => by
    rw [show (255 : Nat) = 2 ^ 8 - 1 from rfl, Nat.testBit_two_pow_sub_one]
  have h32 : ∀ j, Nat.testBit 4294967295 j = decide (j < 32) := fun j => by
    rw [show (4294967295 : Nat) = 2 ^ 32 - 1 from rfl, Nat.testBit_two_pow_sub_one]
  rw [h255, h255, h32]
  by_cases hi : i < 8
  · have hple : p ≤ p + i := Nat.le_add_right p i
    have h1 : p + i - p = i := by omega
    have h2 : p + i < 32 := by omega
    simp [hple, h1, hi, h2]
  · have hv8 : v.testBit i = false := by
      apply Nat.testBit_eq_false_of_lt
      have h256 : (256 : Nat) = 2 ^ 8 := by norm_num
      exact lt_of_lt_of_le (h256 ▸ hv) (Nat.pow_le_pow_right (by norm_num) (by omega))
    simp [hi, hv8]

theorem word_bytes_get (b0 b1 b2 b3 j : Nat) (h0 : b0 < 256) (h1 : b1 < 256)
    (h2 : b2 < 256) (h3 : b3 < 256) (hj : j < 4) :
    ((b0 ||| (b1 <<< 8) ||| (b2 <<< 16) ||| (b3 <<< 24)) >>> (j * 8)) &&& 255 =
      [b0, b1, b2, b3].getD j 0 := by
  have p8 : (2 : Nat) ^ 8 = 256 := by norm_num
  have p16 : (2 : Nat) ^ 16 = 65536 := by norm_num
  have p24 : (2 : Nat) ^ 24 = 16777216 := by norm_num
  rw [lor_shiftLeft_eq_add b1 8 (p8 ▸ h0)]
  rw [lor_shiftLeft_eq_add b2 16 (by rw [p16, p8]; omega)]
  rw [lor_shiftLeft_eq_add b3 24 (by rw [p24, p16, p8]; omega)]
  rw [nat_shiftRight_div, nat_and_255, p8, p16, p24]
  have hj4 : j = 0 ∨ j = 1 ∨ j = 2 ∨ j = 3 := by omega
  rcases hj4 with rfl | rfl | rfl | rfl <;> norm_num <;> omega

theorem cmGetAt_le (row : List Nat) (idx : Nat) : cmGetAt row idx ≤ 15 := by
  rw [cmGetAt]
  split
  · exact Nat.and_le_right
  · exact Nat.and_le_right

theorem lfGetAt_le (row : List Nat) (idx : Nat) : lfGetAt row idx ≤ 255 := by
  rw [lfGetAt]
  exact Nat.and_le_right

theorem ite_lt_min (v m : Int) : (if v < m then v else m) = min m v := by
  split_ifs with h
  · exact (min_eq_right h.le).symm
  · exact (min_eq_left (not_lt.mp h)).symm

theorem cmGetAt_incrementAt (row : List Nat) (idx : Nat) (h : idx / 2 < row.length) :
    cmGetAt (cmIncrementAt row idx) idx =
      if cmGetAt row idx < 15 then cmGetAt row idx + 1 else cmGetAt row idx := by
  rw [cmGetAt, cmGetAt, cmIncrementAt]
  by_cases hpar : idx &&& 1 = 0
  · simp only [if_pos hpar]
    by_cases hv : row.getD (idx / 2) 0 &&& 15 < 15
    · rw [if_pos hv, MCache.getD_set_self _ _ _ _ h, if_pos hv]
      rw [Nat.lor_comm, and240_sh4, or_sh4_low _ _ (by have := Nat.and_le_right (n := row.getD (idx / 2) 0) (m := 15); omega)]
    · rw [if_neg hv, if_neg hv]
  · simp only [if_neg hpar]
    by_cases hv : (row.getD (idx / 2) 0 >>> 4) &&& 15 < 15
    · rw [if_pos hv, MCache.getD_set_self _ _ _ _ h, if_pos hv]
      rw [or_sh4_high _ _ (by have := Nat.and_le_right (n := row.getD (idx / 2) 0) (m := 15); omega)
        (by have := Nat.and_le_right (n := row.getD (idx / 2) 0 >>> 4) (m := 15); omega)]
    · rw [if_neg hv, if_neg hv]

theorem lfGetAt_incrementAt (row : List Nat) (idx : Nat) (h : idx / 4 < row.length) :
    lfGetAt (lfIncrementAt row idx) idx =
      if lfGetAt row idx < 255 then lfGetAt row idx + 1 else lfGetAt row idx := by
  rw [lfGetAt, lfGetAt, lfIncrementAt]
  by_cases hsat : 255 ≤ (row.getD (idx / 4) 0 >>> (idx % 4 * 8)) &&& 255
  · rw [if_pos hsat, if_neg (by omega)]
  · rw [if_neg hsat, MCache.getD_set_self _ _ _ _ h,
      byte_set_get _ _ _ (by omega) (by omega), if_pos (by omega)]

theorem cmGetAt_reset_row (row : List Nat) (idx : Nat) :
    cmGetAt (row.map (fun b =>
        ((b &&& 15) >>> 1) ||| ((((b >>> 4) &&& 15) >>> 1) <<< 4))) idx =
      cmGetAt row idx / 2 := by
  rw [cmGetAt, cmGetAt]
  rw [show ((row.map (fun b =>
      ((b &&& 15) >>> 1) ||| ((((b >>> 4) &&& 15) >>> 1) <<< 4))).getD (idx / 2) 0) =
      ((row.getD (idx / 2) 0 &&& 15) >>> 1) |||
        ((((row.getD (idx / 2) 0 >>> 4) &&& 15) >>> 1) <<< 4) from
    list_getD_map _ row (idx / 2) 0]
  have hlow : (row.getD (idx / 2) 0 &&& 15) >>> 1 < 16 := by
    have := Nat.and_le_right (n := row.getD (idx / 2) 0) (m := 15)
    rw [nat_shiftRight_div]
    omega
  have hhigh : ((row.getD (idx / 2) 0 >>> 4) &&& 15) >>> 1 < 16 := by
    have := Nat.and_le_right (n := row.getD (idx / 2) 0 >>> 4) (m := 15)
    rw [nat_shiftRight_div]
    omega
  split
  · rw [or_sh4_low _ _ hlow, nat_shiftRight_div]
    norm_num
  · rw [or_sh4_high _ _ hlow hhigh, nat_shiftRight_div]
    norm_num

theorem lfGetAt_reset_row (row : List Nat) (idx : Nat) :
    lfGetAt (row.map lfResetWord) idx = lfGetAt row idx / 2 := by
  rw [lfGetAt, lfGetAt]
  rw [show (row.map lfResetWord).getD (idx / 4) 0 = lfResetWord (row.getD (idx / 4) 0) from
    list_getD_map _ row (idx / 4) 0]
  rw [lfResetWord]
  have hb : ∀ k, ((row.getD (idx / 4) 0 >>> k) &&& 255) >>> 1 < 256 := by
    intro k
    have := Nat.and_le_right (n := row.getD (idx / 4) 0 >>> k) (m := 255)
    rw [nat_shiftRight_div]
    omega
  rw [word_bytes_get _ _ _ _ _ (hb 0) (hb 8) (hb 16) (hb 24) (by omega)]
  have hj4 : idx % 4 = 0 ∨ idx % 4 = 1 ∨ idx % 4 = 2 ∨ idx % 4 = 3 := by omega
  rcases hj4 with hj | hj | hj | hj <;> rw [hj] <;>
    simp [nat_shiftRight_div, List.getD]

theorem range4_map_getD (f : Nat → List Nat) (i : Nat) (hi : i < 4) :
    ((List.range 4).map f).getD i [] = f i := by
  interval_cases i <;> rfl

theorem cm_estimate_min (s : CmSketch) (h : Nat) :
    s.estimate h =
      min (min
        (min ((cmGetAt (s.rows.getD 0 []) (sketchIndex s.width (s.seeds.getD 0 0) h) : Int))
          ((cmGetAt (s.rows.getD 1 []) (sketchIndex s.width (s.seeds.getD 1 0) h) : Int)))
        ((cmGetAt (s.rows.getD 2 []) (sketchIndex s.width (s.seeds.getD 2 0) h) : Int)))
        ((cmGetAt (s.rows.getD 3 []) (sketchIndex s.width (s.seeds.getD 3 0) h) : Int)) := by
  rw [CmSketch.estimate, show List.range 4 = [0, 1, 2, 3] from rfl]
  simp only [List.foldl_cons, List.foldl_nil, ite_lt_min]
  have h0 : min (15 : Int)
      ((cmGetAt (s.rows.getD 0 []) (sketchIndex s.width (s.seeds.getD 0 0) h) : Int)) =
      ((cmGetAt (s.rows.getD 0 []) (sketchIndex s.width (s.seeds.getD 0 0) h) : Int)) :=
    min_eq_right (by exact_mod_cast cmGetAt_le (s.rows.getD 0 []) _)
  rw [h0]

theorem lf_estimate_min (s : CmSketchLF) (h : Nat) :
    s.estimate h =
      min (min
        (min ((lfGetAt (s.rows.getD 0 []) (sketchIndex s.width (s.seeds.getD 0 0) h) : Int))
          ((lfGetAt (s.rows.getD 1 []) (sketchIndex s.width (s.seeds.getD 1 0) h) : Int)))
        ((lfGetAt (s.rows.getD 2 []) (sketchIndex s.width (s.seeds.getD 2 0) h) : Int)))
        ((lfGetAt (s.rows.getD 3 []) (sketchIndex s.width (s.seeds.getD 3 0) h) : Int)) := by
  rw [CmSketchLF.estimate, show List.range 4 = [0, 1, 2, 3] from rfl]
  simp only [List.foldl_cons, List.foldl_nil, ite_lt_min]
  have h0 : min (255 : Int)
      ((lfGetAt (s.rows.getD 0 []) (sketchIndex s.width (s.seeds.getD 0 0) h) : Int)) =
      ((lfGetAt (s.rows.getD 0 []) (sketchIndex s.width (s.seeds.getD 0 0) h) : Int)) :=
    min_eq_right (by exact_mod_cast lfGetAt_le (s.rows.getD 0 []) _)
  rw [h0]

end GoPolicy

/-- C6 counterexample: in `cmSketch` (sketch.go) the counters are 4-bit,
not 8-bit: a sketch whose addressed counters all read 15 — far below
255 — is left completely unchanged by `Increment`, and `Estimate`
stays at 15. -/
theorem c6_counterexample_nibble_saturation :
    c6Sketch.rows = [[255], [255], [255], [255]] ∧
    GoPolicy.CmSketch.estimate c6Sketch 0 = 15 ∧
    (GoPolicy.CmSketch.increment c6Sketch 0).rows = [[255], [255], [255], [255]] ∧
    GoPolicy.CmSketch.estimate (GoPolicy.CmSketch.increment c6Sketch 0) 0 = 15 ∧
    ((15 : Int) < 255) := by
  decide

/-- C6 (corrected): the lock-free sketch `cmSketchLockFree` has 8-bit
counters saturating at 255, but `cmSketch` has 4-bit counters
saturating at 15.  For both: `IncrementAt` adds 1 to the addressed
counter below the saturation bound and leaves it unchanged at the
bound, `Increment` applies `IncrementAt` to each of the 4 rows at that
row's mixed index, `Reset` halves every counter (`new = old / 2`), and
`Estimate` is the minimum of the 4 addressed counters. -/
theorem c6_sketch_counter_semantics
    (cmRow lfRow : List Nat) (cmIdx lfIdx : Nat)
    (hcm : cmIdx / 2 < cmRow.length) (hlf : lfIdx / 4 < lfRow.length)
    (s4 : GoPolicy.CmSketch) (s8 : GoPolicy.CmSketchLF) (h i idx : Nat) (hi : i < 4) :
    (GoPolicy.cmGetAt (GoPolicy.cmIncrementAt cmRow cmIdx) cmIdx =
      if GoPolicy.cmGetAt cmRow cmIdx < 15 then GoPolicy.cmGetAt cmRow cmIdx + 1
      else GoPolicy.cmGetAt cmRow cmIdx) ∧
    (GoPolicy.lfGetAt (GoPolicy.lfIncrementAt lfRow lfIdx) lfIdx =
      if GoPolicy.lfGetAt lfRow lfIdx < 255 then GoPolicy.lfGetAt lfRow lfIdx + 1
      else GoPolicy.lfGetAt lfRow lfIdx) ∧
    ((GoPolicy.CmSketch.increment s4 h).rows.getD i [] =
      GoPolicy.cmIncrementAt (s4.rows.getD i [])
        (GoPolicy.sketchIndex s4.width (s4.seeds.getD i 0) h)) ∧
    ((GoPolicy.CmSketchLF.increment s8 h).rows.getD i [] =
      GoPolicy.lfIncrementAt (s8.rows.getD i [])
        (GoPolicy.sketchIndex s8.width (s8.seeds.getD i 0) h)) ∧
    (GoPolicy.cmGetAt ((GoPolicy.CmSketch.reset s4).rows.getD i []) idx =
      GoPolicy.cmGetAt (s4.rows.getD i []) idx / 2) ∧
    (GoPolicy.lfGetAt ((GoPolicy.CmSketchLF.reset s8).rows.getD i []) idx =
      GoPolicy.lfGetAt (s8.rows.getD i []) idx / 2) ∧
    (GoPolicy.CmSketch.estimate s4 h =
      min (min
        (min ((GoPolicy.cmGetAt (s4.rows.getD 0 [])
            (GoPolicy.sketchIndex s4.width (s4.seeds.getD 0 0) h) : Int))
          ((GoPolicy.cmGetAt (s4.rows.getD 1 [])
            (GoPolicy.sketchIndex s4.width (s4.seeds.getD 1 0) h) : Int)))
        ((GoPolicy.cmGetAt (s4.rows.getD 2 [])
          (GoPolicy.sketchIndex s4.width (s4.seeds.getD 2 0) h) : Int)))
        ((GoPolicy.cmGetAt (s4.rows.getD 3 [])
          (GoPolicy.sketchIndex s4.width (s4.seeds.getD 3 0) h) : Int))) ∧
    (GoPolicy.CmSketchLF.estimate s8 h =
      min (min
        (min ((GoPolicy.lfGetAt (s8.rows.getD 0 [])
            (GoPolicy.sketchIndex s8.width (s8.seeds.getD 0 0) h) : Int))
          ((GoPolicy.lfGetAt (s8.rows.getD 1 [])
            (GoPolicy.sketchIndex s8.width (s8.seeds.getD 1 0) h) : Int)))
        ((GoPolicy.lfGetAt (s8.rows.getD 2 [])
          (GoPolicy.sketchIndex s8.width (s8.seeds.getD 2 0) h) : Int)))
        ((GoPolicy.lfGetAt (s8.rows.getD 3 [])
          (GoPolicy.sketchIndex s8.width (s8.seeds.getD 3 0) h) : Int))) := by
  refine ⟨GoPolicy.cmGetAt_incrementAt cmRow cmIdx hcm,
    GoPolicy.lfGetAt_incrementAt lfRow lfIdx hlf, ?_, ?_, ?_, ?_,
    GoPolicy.cm_estimate_min s4 h, GoPolicy.lf_estimate_min s8 h⟩
  · rw [GoPolicy.CmSketch.increment]
    exact GoPolicy.range4_map_getD
      (fun j => GoPolicy.cmIncrementAt (s4.rows.getD j [])
        (GoPolicy.sketchIndex s4.width (s4.seeds.getD j 0) h)) i hi
  · rw [GoPolicy.CmSketchLF.increment]
    exact GoPolicy.range4_map_getD
      (fun j => GoPolicy.lfIncrementAt (s8.rows.getD j [])
        (GoPolicy.sketchIndex s8.width (s8.seeds.getD j 0) h)) i hi
  · rw [GoPolicy.CmSketch.reset]
    rw [show ((s4.rows.map (fun row => row.map (fun b =>
        ((b &&& 15) >>> 1) ||| ((((b >>> 4) &&& 15) >>> 1) <<< 4)))).getD i []) =
        ((s4.rows.getD i []).map (fun b =>
          ((b &&& 15) >>> 1) ||| ((((b >>> 4) &&& 15) >>> 1) <<< 4))) from
      list_getD_map _ s4.rows i []]
    exact GoPolicy.cmGetAt_reset_row _ idx
  · rw [GoPolicy.CmSketchLF.reset]
    rw [show ((s8.rows.map (fun row => row.map GoPolicy.lfResetWord)).getD i []) =
        ((s8.rows.getD i []).map GoPolicy.lfResetWord) from
      list_getD_map _ s8.rows i []]
    exact GoPolicy.lfGetAt_reset_row _ idx

/-- C6 witness: the counter semantics at a one-byte 4-bit row holding 7,
a one-word 8-bit row holding 3, and the two concrete sketches. -/
theorem c6_sketch_counter_semantics_witness :
    (GoPolicy.cmGetAt (GoPolicy.cmIncrementAt [7] 0) 0 =
      if GoPolicy.cmGetAt [7] 0 < 15 then GoPolicy.cmGetAt [7] 0 + 1
      else GoPolicy.cmGetAt [7] 0) ∧
    (GoPolicy.lfGetAt (GoPolicy.lfIncrementAt [3] 0) 0 =
      if GoPolicy.lfGetAt [3] 0 < 255 then GoPolicy.lfGetAt [3] 0 + 1
      else GoPolicy.lfGetAt [3] 0) ∧
    ((GoPolicy.CmSketch.increment c6Sketch 0).rows.getD 0 [] =
      GoPolicy.cmIncrementAt (c6Sketch.rows.getD 0 [])
        (GoPolicy.sketchIndex c6Sketch.width (c6Sketch.seeds.getD 0 0) 0)) ∧
    ((GoPolicy.CmSketchLF.increment c6SketchLF 0).rows.getD 0 [] =
      GoPolicy.lfIncrementAt (c6SketchLF.rows.getD 0 [])
        (GoPolicy.sketchIndex c6SketchLF.width (c6SketchLF.seeds.getD 0 0) 0)) ∧
    (GoPolicy.cmGetAt ((GoPolicy.CmSketch.reset c6Sketch).rows.getD 0 []) 0 =
      GoPolicy.cmGetAt (c6Sketch.rows.getD 0 []) 0 / 2) ∧
    (GoPolicy.lfGetAt ((GoPolicy.CmSketchLF.reset c6SketchLF).rows.getD 0 []) 0 =
      GoPolicy.lfGetAt (c6SketchLF.rows.getD 0 []) 0 / 2) ∧
    (GoPolicy.CmSketch.estimate c6Sketch 0 =
      min (min
        (min ((GoPolicy.cmGetAt (c6Sketch.rows.getD 0 [])
            (GoPolicy.sketchIndex c6Sketch.width (c6Sketch.seeds.getD 0 0) 0) : Int))
          ((GoPolicy.cmGetAt (c6Sketch.rows.getD 1 [])
            (GoPolicy.sketchIndex c6Sketch.width (c6Sketch.seeds.getD 1 0) 0) : Int)))
        ((GoPolicy.cmGetAt (c6Sketch.rows.getD 2 [])
          (GoPolicy.sketchIndex c6Sketch.width (c6Sketch.seeds.getD 2 0) 0) : Int)))
        ((GoPolicy.cmGetAt (c6Sketch.rows.getD 3 [])
          (GoPolicy.sketchIndex c6Sketch.width (c6Sketch.seeds.getD 3 0) 0) : Int))) ∧
    (GoPolicy.CmSketchLF.estimate c6SketchLF 0 =
      min (min
        (min ((GoPolicy.lfGetAt (c6SketchLF.rows.getD 0 [])
            (GoPolicy.sketchIndex c6SketchLF.width (c6SketchLF.seeds.getD 0 0) 0) : Int))
          ((GoPolicy.lfGetAt (c6SketchLF.rows.getD 1 [])
            (GoPolicy.sketchIndex c6SketchLF.width (c6SketchLF.seeds.getD 1 0) 0) : Int)))
        ((GoPolicy.lfGetAt (c6SketchLF.rows.getD 2 [])
          (GoPolicy.sketchIndex c6SketchLF.width (c6SketchLF.seeds.getD 2 0) 0) : Int)))
        ((GoPolicy.lfGetAt (c6SketchLF.rows.getD 3 [])
          (GoPolicy.sketchIndex c6SketchLF.width (c6SketchLF.seeds.getD 3 0) 0) : Int))) :=
  c6_sketch_counter_semantics [7] [3] 0 0 (by decide) (by decide) c6Sketch c6SketchLF
    0 0 0 (by decide)

namespace Radix

theorem cpl_le_left (a b : List Char) : commonPrefixLen a b ≤ a.length := by
  induction a generalizing b with
  | nil => cases b <;> simp [commonPrefixLen]
  | cons x xs ih =>
    cases b with
    | nil => simp [commonPrefixLen]
    | cons y ys =>
      by_cases h : x = y
      · have := ih ys
        simp only [commonPrefixLen, if_pos h, List.length_cons]
        omega
      · simp [commonPrefixLen, h]

theorem cpl_le_right (a b : List Char) : commonPrefixLen a b ≤ b.length := by
  induction a generalizing b with
  | nil => cases b <;> simp [commonPrefixLen]
  | cons x xs ih =>
    cases b with
    | nil => simp [commonPrefixLen]
    | cons y ys =>
      by_cases h : x = y
      · have := ih ys
        simp only [commonPrefixLen, if_pos h, List.length_cons]
        omega
      · simp [commonPrefixLen, h]

theorem cpl_take_eq (a b : List Char) :
    a.take (commonPrefixLen a b) = b.take (commonPrefixLen a b) := by
  induction a generalizing b with
  | nil => cases b <;> simp [commonPrefixLen]
  | cons x xs ih =>
    cases b with
    | nil => simp [commonPrefixLen]
    | cons y ys =>
      by_cases h : x = y
      · simp only [commonPrefixLen, if_pos h, List.take_succ_cons]
        rw [ih ys, h]
      · simp [commonPrefixLen, h]

theorem cpl_prefix_of_eq_length (a b : List Char) (h : commonPrefixLen a b = a.length) :
    a <+: b := by
  have h1 := cpl_take_eq a b
  rw [h, List.take_length] at h1
  rw [h1]
  exact List.take_prefix _ _

theorem cpl_of_prefix (a b : List Char) (h : a <+: b) : commonPrefixLen a b = a.length := by
  obtain ⟨t, rfl⟩ := h
  induction a with
  | nil => rfl
  | cons x xs ih => simp [commonPrefixLen, ih]

theorem cpl_append_left (a x y : List Char) :
    commonPrefixLen (a ++ x) (a ++ y) = a.length + commonPrefixLen x y := by
  induction a with
  | nil => simp
  | cons c rest ih =>
    simp [commonPrefixLen, ih]
    omega

theorem cpl_head_ne (a b : List Char) (d : Char) (ha : commonPrefixLen a b < a.length)
    (hb : commonPrefixLen a b < b.length) :
    (a.drop (commonPrefixLen a b)).getD 0 d ≠ (b.drop (commonPrefixLen a b)).getD 0 d := by
  induction a generalizing b with
  | nil => simp [commonPrefixLen] at ha
  | cons x xs ih =>
    cases b with
    | nil => simp [commonPrefixLen] at hb
    | cons y ys =>
      by_cases h : x = y
      · subst h
        rw [show commonPrefixLen (x :: xs) (x :: ys) = commonPrefixLen xs ys + 1 from by
          simp [commonPrefixLen]] at ha hb ⊢
        simp only [List.drop_succ_cons, List.length_cons] at ha hb ⊢
        exact ih ys (by omega) (by omega)
      · simp [commonPrefixLen, h]

theorem prefix_head_eq (c d : Char) (r k : List Char) (h : (c :: r) <+: (d :: k)) :
    c = d := by
  obtain ⟨t, ht⟩ := h
  simp at ht
  exact ht.1

theorem insertNode_pfx (n : RNode) (key : List Char) (h : Nat) :
    (insertNode n key h).pfx = n.pfx := by
  cases n with
  | node p l kh cs =>
    cases key with
    | nil => rfl
    | cons c kr => rfl

theorem insertNode_nil_leaf (n : RNode) (h : Nat) :
    (insertNode n [] h).leaf = true := by
  cases n with
  | node p l kh cs => rfl

theorem withPfx_pfx (n : RNode) (p : List Char) : (n.withPfx p).pfx = p := by
  cases n with
  | node q l kh cs => rfl

theorem withPfx_leaf (n : RNode) (p : List Char) : (n.withPfx p).leaf = n.leaf := by
  cases n with
  | node q l kh cs => rfl

theorem withPfx_children (n : RNode) (p : List Char) :
    (n.withPfx p).children = n.children := by
  cases n with
  | node q l kh cs => rfl

theorem deleteNode_pfx (n : RNode) (key : List Char) :
    (deleteNode n key).1.pfx = n.pfx := by
  cases n with
  | node p l kh cs =>
    cases key with
    | nil =>
      rw [deleteNode]
      split <;> rfl
    | cons c kr => rfl

theorem deleteNode_cons (p : List Char) (l : Bool) (kh : Nat) (cs : RKids)
    (c : Char) (kr : List Char) :
    deleteNode (.node p l kh cs) (c :: kr) =
      (.node p l kh (deleteKids cs c (c :: kr)).1, (deleteKids cs c (c :: kr)).2) := by
  rfl

theorem hasNode_nil (n : RNode) : hasNode n [] = n.leaf := by
  rw [hasNode]

theorem hasNode_cons (p : List Char) (l : Bool) (kh : Nat) (cs : RKids)
    (c : Char) (kr : List Char) :
    hasNode (.node p l kh cs) (c :: kr) = hasKids cs c (c :: kr) := by
  rw [hasNode]

theorem hasKids_cons (c1 : Char) (child : RNode) (rest : RKids) (c : Char)
    (key : List Char) :
    hasKids (.cons c1 child rest) c key =
      if c1 = c then
        if commonPrefixLen child.pfx key < child.pfx.length then false
        else if commonPrefixLen child.pfx key = key.length then child.leaf
        else hasNode child (key.drop (commonPrefixLen child.pfx key))
      else hasKids rest c key := by
  rw [hasKids]

theorem insertKids_cons (c1 : Char) (child : RNode) (rest : RKids) (c : Char)
    (key : List Char) (h : Nat) :
    insertKids (.cons c1 child rest) c key h =
      if c1 = c then
        if commonPrefixLen child.pfx key = child.pfx.length then
          .cons c1 (insertNode child (key.drop (commonPrefixLen child.pfx key)) h) rest
        else
          .cons c1
            (if (key.drop (commonPrefixLen child.pfx key)).length = 0 then
              RNode.node (child.pfx.take (commonPrefixLen child.pfx key)) true h
                (.cons ((child.withPfx
                    (child.pfx.drop (commonPrefixLen child.pfx key))).pfx.getD 0 ' ')
                  (child.withPfx (child.pfx.drop (commonPrefixLen child.pfx key))) .nil)
            else
              RNode.node (child.pfx.take (commonPrefixLen child.pfx key)) false 0
                (.cons ((child.withPfx
                    (child.pfx.drop (commonPrefixLen child.pfx key))).pfx.getD 0 ' ')
                  (child.withPfx (child.pfx.drop (commonPrefixLen child.pfx key)))
                  (.cons ((key.drop (commonPrefixLen child.pfx key)).getD 0 ' ')
                    (.node (key.drop (commonPrefixLen child.pfx key)) true h .nil) .nil)))
            rest
      else .cons c1 child (insertKids rest c key h) := by
  rw [insertKids]

theorem deleteKids_cons (c1 : Char) (child : RNode) (rest : RKids) (c : Char)
    (key : List Char) :
    deleteKids (.cons c1 child rest) c key =
      if c1 = c then
        if commonPrefixLen child.pfx key < child.pfx.length then
          (.cons c1 child rest, false)
        else
          if !(deleteNode child (key.drop (commonPrefixLen child.pfx key))).1.leaf &&
              kidsLen (deleteNode child
                (key.drop (commonPrefixLen child.pfx key))).1.children = 0 then
            (rest, (deleteNode child (key.drop (commonPrefixLen child.pfx key))).2)
          else if !(deleteNode child (key.drop (commonPrefixLen child.pfx key))).1.leaf &&
              kidsLen (deleteNode child
                (key.drop (commonPrefixLen child.pfx key))).1.children = 1 then
            match kidsFirst (deleteNode child
                (key.drop (commonPrefixLen child.pfx key))).1.children with
            | some gp =>
              (.cons c1 (gp.2.withPfx
                  ((deleteNode child
                    (key.drop (commonPrefixLen child.pfx key))).1.pfx ++ gp.2.pfx)) rest,
                (deleteNode child (key.drop (commonPrefixLen child.pfx key))).2)
            | none =>
              (.cons c1 (deleteNode child
                  (key.drop (commonPrefixLen child.pfx key))).1 rest,
                (deleteNode child (key.drop (commonPrefixLen child.pfx key))).2)
          else
            (.cons c1 (deleteNode child
                (key.drop (commonPrefixLen child.pfx key))).1 rest,
              (deleteNode child (key.drop (commonPrefixLen child.pfx key))).2)
      else (.cons c1 child (deleteKids rest c key).1, (deleteKids rest c key).2) := by
  rw [deleteKids]

theorem findNode_nil (n : RNode) : findNode n [] = some n := by
  rw [findNode]

theorem findNode_cons (p : List Char) (l : Bool) (kh : Nat) (cs : RKids)
    (c : Char) (kr : List Char) :
    findNode (.node p l kh cs) (c :: kr) = findKids cs c (c :: kr) := by
  rw [findNode]

theorem findKids_cons (c1 : Char) (child : RNode) (rest : RKids) (c : Char)
    (remaining : List Char) :
    findKids (.cons c1 child rest) c remaining =
      if c1 = c then
        if commonPrefixLen child.pfx remaining < remaining.length ∧
            commonPrefixLen child.pfx remaining < child.pfx.length then none
        else if remaining.length ≤ commonPrefixLen child.pfx remaining then some child
        else findNode child (remaining.drop (commonPrefixLen child.pfx remaining))
      else findKids rest c remaining := by
  rw [findKids]

theorem collectNode_eq (p : List Char) (leaf : Bool) (kh : Nat) (cs : RKids)
    (results : List Nat) (limit : Int) :
    collectNode (.node p leaf kh cs) results limit =
      if limit ≤ (results.length : Int) then results
      else collectKids cs (if leaf then results ++ [kh] else results) limit := by
  rw [collectNode]

theorem collectKids_cons (c1 : Char) (child : RNode) (rest : RKids)
    (results : List Nat) (limit : Int) :
    collectKids (.cons c1 child rest) results limit =
      if limit ≤ ((collectNode child results limit).length : Int) then
        collectNode child results limit
      else collectKids rest (collectNode child results limit) limit := by
  rw [collectKids]

theorem entriesN_eq (p : List Char) (leaf : Bool) (kh : Nat) (cs : RKids) :
    entriesN (.node p leaf kh cs) =
      (if leaf then [(([] : List Char), kh)] else []) ++ entriesKids cs := by
  rw [entriesN]

theorem entriesKids_cons (c1 : Char) (child : RNode) (rest : RKids) :
    entriesKids (.cons c1 child rest) =
      (entriesN child).map (fun e => (child.pfx ++ e.1, e.2)) ++ entriesKids rest := by
  rw [entriesKids]

theorem wfKids_cons (c : Char) (child : RNode) (rest : RKids) :
    wfKids (.cons c child rest) =
      ((match child.pfx with
        | [] => false
        | c2 :: _ => decide (c2 = c)) && wfN child && !(kidsHasChar rest c) && wfKids rest) := by
  rw [wfKids]

theorem wfN_eq (p : List Char) (l : Bool) (kh : Nat) (cs : RKids) :
    wfN (.node p l kh cs) = wfKids cs := by
  rw [wfN]

theorem pfx_mk (p : List Char) (l : Bool) (kh : Nat) (cs : RKids) :
    (RNode.node p l kh cs).pfx = p := rfl

theorem leaf_mk (p : List Char) (l : Bool) (kh : Nat) (cs : RKids) :
    (RNode.node p l kh cs).leaf = l := rfl

theorem keyHash_mk (p : List Char) (l : Bool) (kh : Nat) (cs : RKids) :
    (RNode.node p l kh cs).keyHash = kh := rfl

theorem children_mk (p : List Char) (l : Bool) (kh : Nat) (cs : RKids) :
    (RNode.node p l kh cs).children = cs := rfl

mutual

theorem insert_has_node (n : RNode) (key : List Char) (h : Nat) :
    hasNode (insertNode n key h) key = true := by
  cases n with
  | node p l kh cs =>
    cases key with
    | nil => rfl
    | cons c kr =>
      rw [show insertNode (.node p l kh cs) (c :: kr) h =
          .node p l kh (insertKids cs c (c :: kr) h) from by rw [insertNode]]
      rw [hasNode_cons]
      exact insert_has_kids cs c kr h

theorem insert_has_kids (cs : RKids) (c : Char) (krest : List Char) (h : Nat) :
    hasKids (insertKids cs c (c :: krest) h) c (c :: krest) = true := by
  cases cs with
  | nil =>
    rw [show insertKids .nil c (c :: krest) h =
        .cons c (.node (c :: krest) true h .nil) .nil from by rw [insertKids]]
    rw [hasKids_cons, if_pos rfl]
    simp only [pfx_mk]
    rw [commonPrefixLen_self]
    rw [if_neg (lt_irrefl _), if_pos rfl]
    rfl
  | cons c1 child rest =>
    by_cases hc : c1 = c
    · subst hc
      by_cases hcl : commonPrefixLen child.pfx (c1 :: krest) = child.pfx.length
      · rw [insertKids_found_recurse c1 child rest (c1 :: krest) h hcl]
        rw [hasKids_cons, if_pos rfl, insertNode_pfx]
        by_cases hk : commonPrefixLen child.pfx (c1 :: krest) = (c1 :: krest).length
        · rw [if_neg (by omega), if_pos hk]
          rw [show (c1 :: krest).drop (commonPrefixLen child.pfx (c1 :: krest)) = [] from by
            rw [hk]; exact List.drop_length _]
          rw [insertNode_nil_leaf]
        · rw [if_neg (by omega), if_neg hk]
          exact insert_has_node child
            ((c1 :: krest).drop (commonPrefixLen child.pfx (c1 :: krest))) h
      · have hlt : commonPrefixLen child.pfx (c1 :: krest) < child.pfx.length :=
          lt_of_le_of_ne (cpl_le_left _ _) hcl
        have hcle : commonPrefixLen child.pfx (c1 :: krest) ≤ (c1 :: krest).length :=
          cpl_le_right _ _
        have htk : child.pfx.take (commonPrefixLen child.pfx (c1 :: krest)) =
            (c1 :: krest).take (commonPrefixLen child.pfx (c1 :: krest)) :=
          cpl_take_eq child.pfx (c1 :: krest)
        have hcl2 : commonPrefixLen
            (child.pfx.take (commonPrefixLen child.pfx (c1 :: krest))) (c1 :: krest) =
            commonPrefixLen child.pfx (c1 :: krest) := by
          rw [htk, cpl_of_prefix _ _ (List.take_prefix _ _), List.length_take]
          omega
        rw [insertKids_cons, if_pos rfl, if_neg hcl]
        by_cases hrem :
            ((c1 :: krest).drop (commonPrefixLen child.pfx (c1 :: krest))).length = 0
        · rw [if_pos hrem]
          rw [hasKids_cons, if_pos rfl]
          simp only [pfx_mk]
          rw [hcl2]
          rw [if_neg (by rw [List.length_take]; omega)]
          rw [if_pos (by simp only [List.length_drop] at hrem; omega)]
          rfl
        · rw [if_neg hrem]
          rw [hasKids_cons, if_pos rfl]
          simp only [pfx_mk]
          rw [hcl2]
          rw [if_neg (by rw [List.length_take]; omega)]
          have hkl : commonPrefixLen child.pfx (c1 :: krest) < (c1 :: krest).length := by
            simp only [List.length_drop] at hrem
            omega
          rw [if_neg (by omega)]
          cases hd : (c1 :: krest).drop (commonPrefixLen child.pfx (c1 :: krest)) with
          | nil => rw [hd] at hrem; simp at hrem
          | cons r0 rr =>
            rw [hasNode_cons]
            rw [hasKids_cons]
            rw [withPfx_pfx]
            have hne : (child.pfx.drop (commonPrefixLen child.pfx (c1 :: krest))).getD 0 ' '
                ≠ r0 := by
              have hx := cpl_head_ne child.pfx (c1 :: krest) ' ' hlt hkl
              rw [hd] at hx
              simpa using hx
            rw [if_neg (by simpa using hne)]
            rw [hasKids_cons]
            simp only [List.getD_cons_zero]
            rw [if_pos trivial]
            simp only [pfx_mk]
            rw [commonPrefixLen_self]
            rw [if_neg (lt_irrefl _), if_pos rfl]
            rfl
    · rw [insertKids_cons, if_neg hc]
      rw [hasKids_cons, if_neg hc]
      exact insert_has_kids rest c krest h

end

theorem wfN_withPfx (n : RNode) (p : List Char) : wfN (n.withPfx p) = wfN n := by
  cases n with
  | node q l kh cs => rfl

theorem kidsHasChar_insert (cs : RKids) (c : Char) (key : List Char) (h : Nat) (x : Char) :
    kidsHasChar (insertKids cs c key h) x = true ↔
      (kidsHasChar cs x = true ∨ x = c) := by
  cases cs with
  | nil =>
    rw [show insertKids .nil c key h = .cons c (.node key true h .nil) .nil from by
      rw [insertKids]]
    simp [kidsHasChar]
    constructor
    · intro h2
      exact h2.symm
    · intro h2
      exact h2.symm
  | cons c1 child rest =>
    have ih := kidsHasChar_insert rest c key h x
    by_cases hc : c1 = c
    · subst hc
      rw [insertKids_cons, if_pos rfl]
      by_cases hcl : commonPrefixLen child.pfx key = child.pfx.length
      · rw [if_pos hcl]
        simp [kidsHasChar]
        intro h2
        exact Or.inl h2.symm
      · rw [if_neg hcl]
        simp [kidsHasChar]
        intro h2
        exact Or.inl h2.symm
    · rw [insertKids_cons, if_neg hc]
      simp [kidsHasChar, ih]
      tauto

theorem hasKids_not_char (cs : RKids) (c : Char) (key : List Char)
    (h : kidsHasChar cs c = false) : hasKids cs c key = false := by
  cases cs with
  | nil => rw [hasKids]
  | cons c1 child rest =>
    simp [kidsHasChar] at h
    rw [hasKids_cons, if_neg h.1]
    exact hasKids_not_char rest c key h.2

mutual

theorem insert_wf_node (n : RNode) (key : List Char) (h : Nat) (hwf : wfN n = true) :
    wfN (insertNode n key h) = true := by
  cases n with
  | node p l kh cs =>
    cases key with
    | nil =>
      rw [show insertNode (.node p l kh cs) [] h = .node p true h cs from by rw [insertNode]]
      rw [wfN_eq]
      rw [wfN_eq] at hwf
      exact hwf
    | cons c kr =>
      rw [show insertNode (.node p l kh cs) (c :: kr) h =
          .node p l kh (insertKids cs c (c :: kr) h) from by rw [insertNode]]
      rw [wfN_eq]
      rw [wfN_eq] at hwf
      exact insert_wf_kids cs c kr h hwf

theorem insert_wf_kids (cs : RKids) (c : Char) (krest : List Char) (h : Nat)
    (hwf : wfKids cs = true) : wfKids (insertKids cs c (c :: krest) h) = true := by
  cases cs with
  | nil =>
    rw [show insertKids .nil c (c :: krest) h =
        .cons c (.node (c :: krest) true h .nil) .nil from by rw [insertKids]]
    rw [wfKids_cons]
    simp [pfx_mk, wfN_eq, wfKids, kidsHasChar]
  | cons c1 child rest =>
    rw [wfKids_cons] at hwf
    simp only [Bool.and_eq_true, Bool.not_eq_true'] at hwf
    obtain ⟨⟨⟨hm, hwc⟩, hkc⟩, hwr⟩ := hwf
    cases hpfx : child.pfx with
    | nil => rw [hpfx] at hm; simp at hm
    | cons p0 ps =>
      rw [hpfx] at hm
      simp at hm
      by_cases hc : c1 = c
      · subst hc
        by_cases hcl : commonPrefixLen child.pfx (c1 :: krest) = child.pfx.length
        · rw [insertKids_found_recurse c1 child rest (c1 :: krest) h hcl]
          rw [wfKids_cons]
          simp only [Bool.and_eq_true, Bool.not_eq_true']
          refine ⟨⟨⟨?_, insert_wf_node child _ h hwc⟩, hkc⟩, hwr⟩
          rw [insertNode_pfx, hpfx]
          simp [hm]
        · have hlt : commonPrefixLen child.pfx (c1 :: krest) < child.pfx.length :=
            lt_of_le_of_ne (cpl_le_left _ _) hcl
          have hpos : 0 < commonPrefixLen child.pfx (c1 :: krest) := by
            rw [hpfx, hm]
            simp [commonPrefixLen]
          obtain ⟨m, hclv⟩ : ∃ m, commonPrefixLen child.pfx (c1 :: krest) = m + 1 :=
            ⟨commonPrefixLen child.pfx (c1 :: krest) - 1, by omega⟩
          rw [insertKids_cons, if_pos rfl, if_neg hcl]
          by_cases hrem :
              ((c1 :: krest).drop (commonPrefixLen child.pfx (c1 :: krest))).length = 0
          · rw [if_pos hrem]
            rw [wfKids_cons]
            simp only [Bool.and_eq_true, Bool.not_eq_true']
            refine ⟨⟨⟨?_, ?_⟩, hkc⟩, hwr⟩
            · rw [pfx_mk, hclv, hpfx, List.take_succ_cons]
              simp [hm]
            · rw [wfN_eq, wfKids_cons]
              simp only [Bool.and_eq_true, Bool.not_eq_true']
              refine ⟨⟨⟨?_, ?_⟩, rfl⟩, rfl⟩
              · rw [withPfx_pfx]
                cases hdp : child.pfx.drop (commonPrefixLen child.pfx (c1 :: krest)) with
                | nil =>
                  have hlen := congrArg List.length hdp
                  simp only [List.length_drop, List.length_nil] at hlen
                  omega
                | cons m0 ms => simp
              · rw [wfN_withPfx]
                exact hwc
          · rw [if_neg hrem]
            have hkl : commonPrefixLen child.pfx (c1 :: krest) < (c1 :: krest).length := by
              simp only [List.length_drop] at hrem
              omega
            rw [wfKids_cons]
            simp only [Bool.and_eq_true, Bool.not_eq_true']
            refine ⟨⟨⟨?_, ?_⟩, hkc⟩, hwr⟩
            · rw [pfx_mk, hclv, hpfx, List.take_succ_cons]
              simp [hm]
            · rw [wfN_eq, wfKids_cons]
              simp only [Bool.and_eq_true, Bool.not_eq_true']
              refine ⟨⟨⟨?_, ?_⟩, ?_⟩, ?_⟩
              · rw [withPfx_pfx]
                cases hdp : child.pfx.drop (commonPrefixLen child.pfx (c1 :: krest)) with
                | nil =>
                  have hlen := congrArg List.length hdp
                  simp only [List.length_drop, List.length_nil] at hlen
                  omega
                | cons m0 ms => simp
              · rw [wfN_withPfx]
                exact hwc
              · rw [withPfx_pfx]
                simp only [kidsHasChar, Bool.or_false, decide_eq_false_iff_not]
                intro he
                exact cpl_head_ne child.pfx (c1 :: krest) ' ' hlt hkl he.symm
              · rw [wfKids_cons]
                simp only [Bool.and_eq_true, Bool.not_eq_true']
                refine ⟨⟨⟨?_, rfl⟩, rfl⟩, rfl⟩
                cases hd : (c1 :: krest).drop (commonPrefixLen child.pfx (c1 :: krest)) with
                | nil => simp [hd] at hrem
                | cons r0 rr => simp [pfx_mk]
      · rw [insertKids_cons, if_neg hc]
        rw [wfKids_cons]
        simp only [Bool.and_eq_true, Bool.not_eq_true']
        refine ⟨⟨⟨?_, hwc⟩, ?_⟩, insert_wf_kids rest c krest h hwr⟩
        · rw [hpfx]
          simp [hm]
        · cases hx : kidsHasChar (insertKids rest c (c :: krest) h) c1
          · rfl
          · exfalso
            rcases (kidsHasChar_insert rest c (c :: krest) h c1).mp hx with h1 | h1
            · rw [hkc] at h1
              exact Bool.noConfusion h1
            · exact hc h1

end

theorem kidsLen_zero (r : RKids) (h : kidsLen r = 0) : r = .nil := by
  cases r with
  | nil => rfl
  | cons a n rr => simp [kidsLen] at h

theorem kidsFirst_some (cs : RKids) (gp : Char × RNode) (h : kidsFirst cs = some gp) :
    ∃ rest2, cs = .cons gp.1 gp.2 rest2 := by
  cases cs with
  | nil => simp [kidsFirst] at h
  | cons a n rr =>
    rw [kidsFirst] at h
    refine ⟨rr, ?_⟩
    cases h
    rfl

theorem deleteNode_nil_leaf (n : RNode) : (deleteNode n []).1.leaf = false := by
  cases n with
  | node p l kh cs =>
    rw [deleteNode]
    cases hl : l
    · simp [hl, leaf_mk]
    · simp [hl, leaf_mk]

theorem hasNode_children_cons (n : RNode) (c : Char) (kr : List Char) :
    hasNode n (c :: kr) = hasKids n.children c (c :: kr) := by
  cases n with
  | node p l kh cs => rw [hasNode_cons, children_mk]

theorem drop_append_len {α : Type} (a b : List α) (n : Nat) :
    (a ++ b).drop (a.length + n) = b.drop n := by
  rw [← List.drop_drop, List.drop_left]

theorem kidsHasChar_delete (cs : RKids) (c : Char) (key : List Char) (x : Char)
    (h : kidsHasChar (deleteKids cs c key).1 x = true) : kidsHasChar cs x = true := by
  cases cs with
  | nil =>
    rw [deleteKids] at h
    exact h
  | cons c1 child rest =>
    by_cases hc : c1 = c
    · rw [deleteKids_cons, if_pos hc] at h
      split at h
      · simp [kidsHasChar] at h ⊢
        tauto
      · split at h
        · simp [kidsHasChar] at h ⊢
          tauto
        · split at h
          · split at h
            · simp [kidsHasChar] at h ⊢
              tauto
            · simp [kidsHasChar] at h ⊢
              tauto
          · simp [kidsHasChar] at h ⊢
            tauto
    · rw [deleteKids_cons, if_neg hc] at h
      simp [kidsHasChar] at h ⊢
      rcases h with h | h
      · tauto
      · exact Or.inr (kidsHasChar_delete rest c key x h)

mutual

theorem del_wf_node (n : RNode) (key : List Char) (hwf : wfN n = true) :
    wfN (deleteNode n key).1 = true := by
  cases n with
  | node p l kh cs =>
    cases key with
    | nil =>
      rw [deleteNode]
      rw [wfN_eq] at hwf
      split
      · rw [wfN_eq]
        exact hwf
      · rw [wfN_eq]
        exact hwf
    | cons c kr =>
      rw [deleteNode_cons]
      rw [wfN_eq] at hwf
      rw [wfN_eq]
      exact del_wf_kids cs c (c :: kr) hwf

theorem del_wf_kids (cs : RKids) (c : Char) (key : List Char) (hwf : wfKids cs = true) :
    wfKids (deleteKids cs c key).1 = true := by
  cases cs with
  | nil =>
    rw [deleteKids]
    exact hwf
  | cons c1 child rest =>
    rw [wfKids_cons] at hwf
    simp only [Bool.and_eq_true, Bool.not_eq_true'] at hwf
    obtain ⟨⟨⟨hm, hwc⟩, hkc⟩, hwr⟩ := hwf
    cases hpfx : child.pfx with
    | nil => rw [hpfx] at hm; simp at hm
    | cons p0 ps =>
      rw [hpfx] at hm
      simp at hm
      by_cases hc : c1 = c
      · rw [deleteKids_cons, if_pos hc]
        split
        · rw [wfKids_cons]
          simp only [Bool.and_eq_true, Bool.not_eq_true']
          exact ⟨⟨⟨by rw [hpfx]; simp [hm], hwc⟩, hkc⟩, hwr⟩
        · split
          · exact hwr
          · split
            · split
              · rename_i gp hgf
                rw [wfKids_cons]
                simp only [Bool.and_eq_true, Bool.not_eq_true']
                have hwc2 : wfN (deleteNode child
                    (key.drop (commonPrefixLen child.pfx key))).1 = true :=
                  del_wf_node child _ hwc
                obtain ⟨rest2, hch⟩ := kidsFirst_some _ gp hgf
                have hgwf : wfN gp.2 = true ∧ (∃ gs, gp.2.pfx = gp.1 :: gs) := by
                  cases hcn : (deleteNode child
                      (key.drop (commonPrefixLen child.pfx key))).1 with
                  | node p2 l2 kh2 cs2 =>
                    rw [hcn] at hwc2
                    rw [wfN_eq] at hwc2
                    rw [hcn, children_mk] at hch
                    rw [hch] at hwc2
                    rw [wfKids_cons] at hwc2
                    simp only [Bool.and_eq_true, Bool.not_eq_true'] at hwc2
                    obtain ⟨⟨⟨hgm, hgw⟩, _⟩, _⟩ := hwc2
                    refine ⟨hgw, ?_⟩
                    cases hgp : gp.2.pfx with
                    | nil => rw [hgp] at hgm; simp at hgm
                    | cons g0 gs =>
                      rw [hgp] at hgm
                      simp at hgm
                      exact ⟨gs, by rw [hgm]⟩
                obtain ⟨hgw, gs, hgp⟩ := hgwf
                refine ⟨⟨⟨?_, ?_⟩, hkc⟩, hwr⟩
                · rw [withPfx_pfx, deleteNode_pfx, hpfx]
                  simp [hm]
                · rw [wfN_withPfx]
                  exact hgw
              · rw [wfKids_cons]
                simp only [Bool.and_eq_true, Bool.not_eq_true']
                refine ⟨⟨⟨?_, del_wf_node child _ hwc⟩, hkc⟩, hwr⟩
                rw [deleteNode_pfx, hpfx]
                simp [hm]
            · rw [wfKids_cons]
              simp only [Bool.and_eq_true, Bool.not_eq_true']
              refine ⟨⟨⟨?_, del_wf_node child _ hwc⟩, hkc⟩, hwr⟩
              rw [deleteNode_pfx, hpfx]
              simp [hm]
      · rw [deleteKids_cons, if_neg hc]
        rw [wfKids_cons]
        simp only [Bool.and_eq_true, Bool.not_eq_true']
        refine ⟨⟨⟨by rw [hpfx]; simp [hm], hwc⟩, ?_⟩, del_wf_kids rest c key hwr⟩
        cases hx : kidsHasChar (deleteKids rest c key).1 c1
        · rfl
        · exfalso
          have := kidsHasChar_delete rest c key c1 hx
          rw [hkc] at this
          exact Bool.noConfusion this

end

mutual

theorem del_has_node (n : RNode) (key : List Char) (hwf : wfN n = true) :
    hasNode (deleteNode n key).1 key = false := by
  cases n with
  | node p l kh cs =>
    cases key with
    | nil =>
      rw [hasNode_nil, deleteNode_nil_leaf]
    | cons c kr =>
      rw [deleteNode_cons]
      rw [hasNode_cons]
      rw [wfN_eq] at hwf
      exact del_has_kids cs c kr hwf

theorem del_has_kids (cs : RKids) (c : Char) (krest : List Char)
    (hwf : wfKids cs = true) :
    hasKids (deleteKids cs c (c :: krest)).1 c (c :: krest) = false := by
  cases cs with
  | nil =>
    rw [deleteKids]
    rw [hasKids]
  | cons c1 child rest =>
    rw [wfKids_cons] at hwf
    simp only [Bool.and_eq_true, Bool.not_eq_true'] at hwf
    obtain ⟨⟨⟨hm, hwc⟩, hkc⟩, hwr⟩ := hwf
    by_cases hc : c1 = c
    · subst hc
      rw [deleteKids_cons, if_pos rfl]
      by_cases hlt : commonPrefixLen child.pfx (c1 :: krest) < child.pfx.length
      · rw [if_pos hlt]
        simp only []
        rw [hasKids_cons, if_pos rfl, if_pos hlt]
      · rw [if_neg hlt]
        have hcl : commonPrefixLen child.pfx (c1 :: krest) = child.pfx.length := by
          have := cpl_le_left child.pfx (c1 :: krest)
          omega
        obtain ⟨kd, hkey⟩ := cpl_prefix_of_eq_length _ _ hcl
        have hkd : (c1 :: krest).drop (commonPrefixLen child.pfx (c1 :: krest)) = kd := by
          rw [hcl, ← hkey, List.drop_left]
        have hIH : hasNode (deleteNode child kd).1 kd = false := del_has_node child kd hwc
        rw [hkd]
        split
        · exact hasKids_not_char rest c1 _ hkc
        · split
          · rename_i hB3
            simp only [Bool.and_eq_true, Bool.not_eq_true', decide_eq_true_eq] at hB3
            obtain ⟨hleaf2, hlen1⟩ := hB3
            split
            · rename_i gp hgf
              have hwc2 : wfN (deleteNode child kd).1 = true := del_wf_node child kd hwc
              obtain ⟨rest2, hch⟩ := kidsFirst_some _ gp hgf
              have hr2 : rest2 = RKids.nil := by
                apply kidsLen_zero
                rw [hch] at hlen1
                simp [kidsLen] at hlen1
                exact hlen1
              rw [hr2] at hch
              cases hcn : (deleteNode child kd).1 with
              | node p2 l2 kh2 cs2 =>
                rw [hcn, children_mk] at hch
                rw [hcn] at hIH hwc2
                rw [wfN_eq, hch, wfKids_cons] at hwc2
                simp only [Bool.and_eq_true, Bool.not_eq_true'] at hwc2
                obtain ⟨⟨⟨hgm, hgw⟩, -⟩, -⟩ := hwc2
                cases hgp : gp.2.pfx with
                | nil =>
                  rw [hgp] at hgm
                  simp at hgm
                | cons g0 gs =>
                  rw [hgp] at hgm
                  simp at hgm
                  have hp2 : p2 = child.pfx := by
                    have hq := deleteNode_pfx child kd
                    rw [hcn, pfx_mk] at hq
                    exact hq
                  simp only [pfx_mk]
                  rw [hasKids_cons, if_pos rfl, withPfx_pfx]
                  rw [hp2, ← hkey]
                  rw [cpl_append_left]
                  by_cases hb1 : child.pfx.length + commonPrefixLen (g0 :: gs) kd <
                      (child.pfx ++ (g0 :: gs)).length
                  · rw [if_pos hb1]
                  · rw [if_neg hb1]
                    have hg3 : commonPrefixLen (g0 :: gs) kd = (g0 :: gs).length := by
                      have h1 := cpl_le_left (g0 :: gs) kd
                      simp only [List.length_append] at hb1
                      omega
                    by_cases hb2 : child.pfx.length + commonPrefixLen (g0 :: gs) kd =
                        (child.pfx ++ kd).length
                    · rw [if_pos hb2]
                      rw [withPfx_leaf]
                      have hkdg : kd = g0 :: gs := by
                        have h2 := cpl_le_right (g0 :: gs) kd
                        simp only [List.length_append] at hb2
                        have hpre : (g0 :: gs) <+: kd :=
                          cpl_prefix_of_eq_length _ _ hg3
                        exact (List.IsPrefix.eq_of_length hpre (by omega)).symm
                      rw [hkdg, hasNode_cons, hch] at hIH
                      rw [hasKids_cons, if_pos hgm.symm] at hIH
                      rw [hgp, commonPrefixLen_self] at hIH
                      rw [if_neg (lt_irrefl _), if_pos rfl] at hIH
                      exact hIH
                    · rw [if_neg hb2]
                      rw [drop_append_len, hg3]
                      have hlt3 : (g0 :: gs).length < kd.length := by
                        have h2 := cpl_le_right (g0 :: gs) kd
                        simp only [List.length_append] at hb2
                        omega
                      cases hdk : kd.drop (g0 :: gs).length with
                      | nil =>
                        have hq := congrArg List.length hdk
                        simp only [List.length_drop, List.length_nil] at hq
                        omega
                      | cons d0 ds =>
                        rw [hasNode_children_cons, withPfx_children]
                        have hkdsplit : kd = (g0 :: gs) ++ (d0 :: ds) := by
                          obtain ⟨t, ht⟩ := cpl_prefix_of_eq_length _ _ hg3
                          have ht2 : t = d0 :: ds := by
                            rw [← hdk, ← ht, List.drop_left]
                          rw [← ht, ht2]
                        rw [hkdsplit] at hIH
                        rw [show ((g0 :: gs) ++ (d0 :: ds)) =
                            g0 :: (gs ++ (d0 :: ds)) from rfl] at hIH
                        rw [hasNode_cons, hch] at hIH
                        rw [hasKids_cons, if_pos hgm.symm] at hIH
                        rw [hgp] at hIH
                        have hcplx : commonPrefixLen (g0 :: gs)
                            (g0 :: (gs ++ (d0 :: ds))) = (g0 :: gs).length :=
                          cpl_of_prefix _ _ ⟨d0 :: ds, rfl⟩
                        rw [hcplx] at hIH
                        rw [if_neg (lt_irrefl _)] at hIH
                        rw [if_neg (by
                          simp only [List.length_cons, List.length_append]
                          omega)] at hIH
                        have hdrop : (g0 :: (gs ++ (d0 :: ds))).drop
                            (g0 :: gs).length = d0 :: ds := by
                          rw [show (g0 :: (gs ++ (d0 :: ds))) =
                            (g0 :: gs) ++ (d0 :: ds) from rfl, List.drop_left]
                        rw [hdrop] at hIH
                        rw [hasNode_children_cons] at hIH
                        exact hIH
            · simp only []
              rw [hasKids_cons, if_pos rfl, deleteNode_pfx]
              rw [if_neg hlt]
              by_cases hk : commonPrefixLen child.pfx (c1 :: krest) = (c1 :: krest).length
              · rw [if_pos hk]
                have hkdnil : kd = [] := by
                  have hlen := congrArg List.length hkey
                  simp only [List.length_append] at hlen
                  have hz : kd.length = 0 := by omega
                  exact List.eq_nil_of_length_eq_zero hz
                rw [hkdnil, deleteNode_nil_leaf]
              · rw [if_neg hk, hkd]
                exact hIH
          · simp only []
            rw [hasKids_cons, if_pos rfl, deleteNode_pfx]
            rw [if_neg hlt]
            by_cases hk : commonPrefixLen child.pfx (c1 :: krest) = (c1 :: krest).length
            · rw [if_pos hk]
              have hkdnil : kd = [] := by
                have hlen := congrArg List.length hkey
                simp only [List.length_append] at hlen
                have hz : kd.length = 0 := by omega
                exact List.eq_nil_of_length_eq_zero hz
              rw [hkdnil, deleteNode_nil_leaf]
            · rw [if_neg hk, hkd]
              exact hIH
    · rw [deleteKids_cons, if_neg hc]
      simp only []
      rw [hasKids_cons, if_neg hc]
      exact del_has_kids rest c krest hwr

end

theorem cpl_comm (a b : List Char) : commonPrefixLen a b = commonPrefixLen b a := by
  induction a generalizing b with
  | nil => cases b <;> simp [commonPrefixLen]
  | cons x xs ih =>
    cases b with
    | nil => simp [commonPrefixLen]
    | cons y ys =>
      by_cases h : x = y
      · subst h
        simp [commonPrefixLen, ih]
      · have h2 : ¬ y = x := fun hy => h hy.symm
        simp [commonPrefixLen, h, h2]

theorem cpl_prefix_append (a x r : List Char) (h : r <+: a ++ x) :
    min a.length r.length ≤ commonPrefixLen a r := by
  induction a generalizing r with
  | nil => simp
  | cons a0 as ih =>
    cases r with
    | nil => simp [commonPrefixLen]
    | cons r0 rs =>
      have hhead : r0 = a0 := prefix_head_eq r0 a0 rs (as ++ x) h
      subst hhead
      have htail : rs <+: as ++ x := by
        obtain ⟨t, ht⟩ := h
        simp only [List.cons_append] at ht
        exact ⟨t, by injection ht⟩
      have := ih rs htail
      rw [show commonPrefixLen (r0 :: as) (r0 :: rs) = commonPrefixLen as rs + 1 from by
        simp [commonPrefixLen]]
      simp only [List.length_cons]
      omega

theorem isPrefixOf_append_left (a x y : List Char) :
    (a ++ x).isPrefixOf (a ++ y) = x.isPrefixOf y := by
  induction a with
  | nil => rfl
  | cons c rest ih => simp [List.isPrefixOf, ih]

theorem entriesKids_heads (cs : RKids) (hwf : wfKids cs = true) :
    ∀ e ∈ entriesKids cs, ∃ c1 tl, kidsHasChar cs c1 = true ∧ e.1 = c1 :: tl := by
  cases cs with
  | nil =>
    intro e he
    rw [entriesKids] at he
    simp at he
  | cons c1 child rest =>
    rw [wfKids_cons] at hwf
    simp only [Bool.and_eq_true, Bool.not_eq_true'] at hwf
    obtain ⟨⟨⟨hm, hwc⟩, hkc⟩, hwr⟩ := hwf
    cases hpfx : child.pfx with
    | nil => rw [hpfx] at hm; simp at hm
    | cons p0 ps =>
      rw [hpfx] at hm
      simp at hm
      intro e he
      rw [entriesKids_cons, List.mem_append] at he
      rcases he with he | he
      · simp only [List.mem_map] at he
        obtain ⟨e0, he0, rfl⟩ := he
        refine ⟨c1, ps ++ e0.1, ?_, ?_⟩
        · simp [kidsHasChar]
        · rw [hpfx, hm]
          rfl
      · obtain ⟨c2, tl, hck2, he2⟩ := entriesKids_heads rest hwr e he
        refine ⟨c2, tl, ?_, he2⟩
        simp [kidsHasChar, hck2]

theorem filter_not_prefix {r : List Char} (l : List (List Char × Nat))
    (h : ∀ e ∈ l, ¬ (r <+: e.1)) :
    l.filter (fun e => r.isPrefixOf e.1) = [] := by
  apply List.filter_eq_nil_iff.mpr
  intro e he hp
  exact h e he (List.isPrefixOf_iff_prefix.mp hp)

theorem filter_rest_nil (cs : RKids) (c : Char) (rr : List Char)
    (hwf : wfKids cs = true) (hnc : kidsHasChar cs c = false) :
    (entriesKids cs).filter (fun e => (c :: rr).isPrefixOf e.1) = [] := by
  apply filter_not_prefix
  intro e he hp
  obtain ⟨c1, tl, hck, he1⟩ := entriesKids_heads cs hwf e he
  rw [he1] at hp
  have hce : c = c1 := prefix_head_eq c c1 rr tl hp
  rw [← hce] at hck
  rw [hnc] at hck
  exact Bool.noConfusion hck

mutual

theorem find_entries_node (n : RNode) (r : List Char) (hwf : wfN n = true) :
    (match findNode n r with
     | none => (entriesN n).filter (fun e => r.isPrefixOf e.1) = []
     | some m => ((entriesN n).filter (fun e => r.isPrefixOf e.1)).map Prod.snd =
         (entriesN m).map Prod.snd) := by
  cases n with
  | node p l kh cs =>
    cases r with
    | nil =>
      rw [findNode_nil]
      simp only []
      rw [List.filter_eq_self.mpr]
      intro e he
      exact List.isPrefixOf_iff_prefix.mpr List.nil_prefix
    | cons c rr =>
      rw [findNode_cons]
      rw [wfN_eq] at hwf
      have hk := find_entries_kids cs c rr hwf
      rw [entriesN_eq, List.filter_append]
      have hleaf : (if l then [(([] : List Char), kh)] else []).filter
          (fun e => (c :: rr).isPrefixOf e.1) = [] := by
        cases l <;> simp [List.isPrefixOf]
      rw [hleaf, List.nil_append]
      exact hk

theorem find_entries_kids (cs : RKids) (c : Char) (rr : List Char)
    (hwf : wfKids cs = true) :
    (match findKids cs c (c :: rr) with
     | none => (entriesKids cs).filter (fun e => (c :: rr).isPrefixOf e.1) = []
     | some m => ((entriesKids cs).filter (fun e => (c :: rr).isPrefixOf e.1)).map
         Prod.snd = (entriesN m).map Prod.snd) := by
  cases cs with
  | nil =>
    rw [show findKids .nil c (c :: rr) = none from by rw [findKids]]
    simp [entriesKids]
  | cons c1 child rest =>
    rw [wfKids_cons] at hwf
    simp only [Bool.and_eq_true, Bool.not_eq_true'] at hwf
    obtain ⟨⟨⟨hm, hwc⟩, hkc⟩, hwr⟩ := hwf
    cases hpfx : child.pfx with
    | nil => rw [hpfx] at hm; simp at hm
    | cons p0 ps =>
      rw [hpfx] at hm
      simp at hm
      rw [findKids_cons, entriesKids_cons, List.filter_append]
      by_cases hc : c1 = c
      · rw [if_pos hc]
        have hrest : (entriesKids rest).filter (fun e => (c :: rr).isPrefixOf e.1) = [] := by
          apply filter_rest_nil rest c rr hwr
          rw [← hc]
          exact hkc
        by_cases hb1 : commonPrefixLen child.pfx (c :: rr) < (c :: rr).length ∧
            commonPrefixLen child.pfx (c :: rr) < child.pfx.length
        · rw [if_pos hb1]
          simp only []
          rw [hrest, List.append_nil]
          apply filter_not_prefix
          intro e he hp
          simp only [List.mem_map] at he
          obtain ⟨e0, he0, rfl⟩ := he
          have hmin := cpl_prefix_append child.pfx e0.1 (c :: rr) hp
          omega
        · rw [if_neg hb1]
          by_cases hb2 : (c :: rr).length ≤ commonPrefixLen child.pfx (c :: rr)
          · rw [if_pos hb2]
            simp only []
            have hrpfx : (c :: rr) <+: child.pfx := by
              have h1 := cpl_le_right child.pfx (c :: rr)
              have h2 : commonPrefixLen (c :: rr) child.pfx = (c :: rr).length := by
                rw [cpl_comm]
                omega
              exact cpl_prefix_of_eq_length _ _ h2
            rw [hrest, List.append_nil]
            rw [List.filter_eq_self.mpr]
            · rw [List.map_map]
              exact List.map_congr_left (fun e _ => rfl)
            · intro e he
              simp only [List.mem_map] at he
              obtain ⟨e0, he0, rfl⟩ := he
              exact List.isPrefixOf_iff_prefix.mpr
                (hrpfx.trans (List.prefix_append _ _))
          · rw [if_neg hb2]
            have hcl : commonPrefixLen child.pfx (c :: rr) = child.pfx.length := by
              have h1 := cpl_le_left child.pfx (c :: rr)
              omega
            obtain ⟨rd, hrd⟩ := cpl_prefix_of_eq_length _ _ hcl
            have hrdrop : (c :: rr).drop (commonPrefixLen child.pfx (c :: rr)) = rd := by
              rw [hcl, ← hrd, List.drop_left]
            rw [hrdrop]
            have hrec := find_entries_node child rd hwc
            rw [hrest, List.append_nil]
            have hfiltermap : ((entriesN child).map
                (fun e => (child.pfx ++ e.1, e.2))).filter
                (fun e => (c :: rr).isPrefixOf e.1) =
                ((entriesN child).filter (fun e => rd.isPrefixOf e.1)).map
                  (fun e => (child.pfx ++ e.1, e.2)) := by
              rw [List.filter_map]
              congr 1
              apply List.filter_congr
              intro e he
              simp only [Function.comp]
              rw [← hrd]
              exact isPrefixOf_append_left child.pfx rd e.1
            rw [hfiltermap]
            cases hfn : findNode child rd with
            | none =>
              rw [hfn] at hrec
              simp only [] at hrec
              rw [hrec]
              simp
            | some m2 =>
              rw [hfn] at hrec
              simp only [] at hrec
              rw [List.map_map]
              exact (List.map_congr_left (fun e _ => rfl)).trans hrec
      · rw [if_neg hc]
        have hchild : ((entriesN child).map (fun e => (child.pfx ++ e.1, e.2))).filter
            (fun e => (c :: rr).isPrefixOf e.1) = [] := by
          apply filter_not_prefix
          intro e he hp
          simp only [List.mem_map] at he
          obtain ⟨e0, he0, rfl⟩ := he
          rw [hpfx] at hp
          have hcp : c = p0 := prefix_head_eq c p0 rr (ps ++ e0.1) hp
          apply hc
          rw [← hm, ← hcp]
        rw [hchild, List.nil_append]
        exact find_entries_kids rest c rr hwr

end

mutual

theorem collect_entries_node (n : RNode) (acc : List Nat) (lim : Int)
    (hb : (acc.length : Int) + ((entriesN n).length : Int) ≤ lim) :
    collectNode n acc lim = acc ++ (entriesN n).map Prod.snd := by
  cases n with
  | node p l kh cs =>
    rw [collectNode_eq, entriesN_eq]
    rw [entriesN_eq] at hb
    by_cases hg : lim ≤ (acc.length : Int)
    · rw [if_pos hg]
      have hnil : ((if l then [(([] : List Char), kh)] else []) ++ entriesKids cs) = [] := by
        apply List.eq_nil_of_length_eq_zero
        have hlen : (((if l then [(([] : List Char), kh)] else []) ++
            entriesKids cs).length : Int) ≤ 0 := by omega
        omega
      rw [hnil]
      simp
    · rw [if_neg hg]
      cases l with
      | false =>
        have hb2 : (acc.length : Int) + ((entriesKids cs).length : Int) ≤ lim := by
          simp at hb
          omega
        have hk := collect_entries_kids cs acc lim hb2
        simp only [Bool.false_eq_true, if_false, List.nil_append]
        exact hk
      | true =>
        have hb2 : (((acc ++ [kh]).length : Nat) : Int) +
            ((entriesKids cs).length : Int) ≤ lim := by
          simp at hb ⊢
          push_cast
          omega
        have hk := collect_entries_kids cs (acc ++ [kh]) lim hb2
        simp only [eq_self_iff_true, if_true]
        rw [hk]
        simp

theorem collect_entries_kids (cs : RKids) (acc : List Nat) (lim : Int)
    (hb : (acc.length : Int) + ((entriesKids cs).length : Int) ≤ lim) :
    collectKids cs acc lim = acc ++ (entriesKids cs).map Prod.snd := by
  cases cs with
  | nil =>
    rw [show collectKids .nil acc lim = acc from by rw [collectKids]]
    rw [show entriesKids .nil = [] from by rw [entriesKids]]
    simp
  | cons c1 child rest =>
    rw [collectKids_cons, entriesKids_cons]
    rw [entriesKids_cons] at hb
    have h1 : collectNode child acc lim = acc ++ (entriesN child).map Prod.snd := by
      apply collect_entries_node child acc lim
      simp only [List.length_append, List.length_map] at hb
      push_cast at hb ⊢
      omega
    rw [h1]
    have hmm : (entriesN child).map (Prod.snd ∘ (fun e => (child.pfx ++ e.1, e.2))) =
        (entriesN child).map Prod.snd := List.map_congr_left fun e _ => rfl
    by_cases hg : lim ≤ ((acc ++ (entriesN child).map Prod.snd).length : Int)
    · rw [if_pos hg]
      have hrnil : entriesKids rest = [] := by
        apply List.eq_nil_of_length_eq_zero
        simp only [List.length_append, List.length_map] at hb hg
        push_cast at hb hg
        omega
      rw [hrnil]
      rw [List.append_nil, List.map_map, hmm]
    · rw [if_neg hg]
      have h2 := collect_entries_kids rest (acc ++ (entriesN child).map Prod.snd) lim (by
        simp only [List.length_append, List.length_map] at hb ⊢
        push_cast at hb ⊢
        omega)
      rw [h2, List.map_append, List.map_map, hmm, List.append_assoc]

end

end Radix

/-- C7: on a well-formed radix tree, `Insert(k, h)` makes `Has(k)` true;
`Insert(k, h)` followed by `Delete(k)` makes `Has(k)` false; and
`FindByPrefix(p, limit)`, for a positive `limit` no smaller than the
number of stored keys with prefix `p`, returns exactly the hashes of the
stored keys (the entries of the tree) that start with `p`, in tree
order. -/
theorem c7_radix_insert_delete_find (t : Radix.Tree) (k p : List Char) (h : Nat)
    (limit : Int) (hwf : Radix.wfN t.root = true) (hpos : 0 < limit)
    (hcount : (((Radix.entriesN t.root).filter
        (fun e => p.isPrefixOf e.1)).length : Int) ≤ limit) :
    (t.insert k h).hasKey k = true ∧
    (((t.insert k h).del k).1.hasKey k = false) ∧
    t.findByPfx p limit =
      ((Radix.entriesN t.root).filter (fun e => p.isPrefixOf e.1)).map Prod.snd := by
  refine ⟨?_, ?_, ?_⟩
  · rw [Radix.Tree.insert, Radix.Tree.hasKey]
    exact Radix.insert_has_node t.root k h
  · rw [Radix.Tree.insert, Radix.Tree.del]
    have hwf2 : Radix.wfN (Radix.insertNode t.root k h) = true :=
      Radix.insert_wf_node t.root k h hwf
    have hdel := Radix.del_has_node (Radix.insertNode t.root k h) k hwf2
    split
    · exact hdel
    · exact hdel
  · rw [Radix.Tree.findByPfx]
    rw [if_neg (by omega : ¬ limit ≤ 0)]
    have hfind := Radix.find_entries_node t.root p hwf
    cases hfn : Radix.findNode t.root p with
    | none =>
      rw [hfn] at hfind
      simp only [] at hfind
      simp [hfind]
    | some m =>
      rw [hfn] at hfind
      simp only [] at hfind
      have hlen : ((([] : List Nat).length : Int)) +
          ((Radix.entriesN m).length : Int) ≤ limit := by
        have hq := congrArg List.length hfind
        simp only [List.length_map] at hq
        simp only [List.length_nil]
        push_cast
        omega
      show Radix.collectNode m [] limit =
        ((Radix.entriesN t.root).filter (fun e => p.isPrefixOf e.1)).map Prod.snd
      rw [Radix.collect_entries_node m [] limit hlen]
      rw [List.nil_append]
      exact hfind.symm

/-- C7 witness: a two-key tree; inserting and deleting `"ef"`, and a
prefix search for `"a"` with limit 5. -/
theorem c7_radix_insert_delete_find_witness :
    (c7Tree.insert ['e', 'f'] 3).hasKey ['e', 'f'] = true ∧
    (((c7Tree.insert ['e', 'f'] 3).del ['e', 'f']).1.hasKey ['e', 'f'] = false) ∧
    c7Tree.findByPfx ['a'] 5 =
      ((Radix.entriesN c7Tree.root).filter
        (fun e => (['a'] : List Char).isPrefixOf e.1)).map Prod.snd :=
  c7_radix_insert_delete_find c7Tree ['e', 'f'] ['a'] 3 5 (by decide) (by decide)
    (by decide)
